import Mathlib

/-!
# Verification of the jiffy JSON Expression engine

Shallow embedding of the Go package `jiffy` (JSON Expressions).  The engine
decodes a parsed generic JSON value into a typed expression tree (`fromParts`),
validates nodes (`Expression.Validate`), and encodes a tree back to JSON bytes
(`MarshalJSON`).  JSON byte-level parsing/serialization is delegated by the Go
code to `encoding/json`; we model parsed generic JSON values with the `Json`
inductive and model `json.Marshal` of a generic value with `serialize`.

The Go `Validator` field is a function `func(string, []interface{}) error`
stored on each node.  Storing a function over the argument list inside the tree
type would be a non-positive occurrence, so the validator is modelled as an
abstract token of type `V` stored per node, together with an interpretation
function `f : V → String → List (Arg V) → Option String` passed to every
operation (`none` = the Go validator returned `nil`; `some msg` = it returned
an error with message `msg`).  Go's error values are modelled by their
messages (`Option String` / `Except String`).
-/

namespace Jiffy

/-- Model of a parsed generic JSON value, as produced by `json.Unmarshal` into
`interface{}`: Go gives `string`, `float64`, `bool`, `nil`, `[]interface{}`
and `map[string]interface{}`.  A JSON number is carried as the decimal text
that Go's `fmt`/`encoding/json` would render for the parsed `float64`
(e.g. `"42"` for the JSON number 42). -/
inductive Json : Type where
  | str (s : String)
  | num (lit : String)
  | bool (b : Bool)
  | null
  | arr (elems : List Json)
  | obj (fields : List (String × Json))

/-- Model of Go's `fmt` `%v` rendering of a parsed JSON `interface{}` value,
as used by `getOperator`'s error message: numbers render as their literal,
booleans as `true`/`false`, `nil` as `<nil>`, strings bare, slices as
space-separated values in brackets, maps in Go's `map[k:v]` form. -/
def goRender : Json → String
  | .str s => s
  | .num lit => lit
  | .bool b => if b then "true" else "false"
  | .null => "<nil>"
  | .arr elems => "[" ++ String.intercalate " " (elems.attach.map fun x => goRender x.1) ++ "]"
  | .obj fields => "map[" ++ String.intercalate " "
      (fields.attach.map fun x => x.1.1 ++ ":" ++ goRender x.1.2) ++ "]"
termination_by j => sizeOf j
decreasing_by
  · simp_wf
    have h := List.sizeOf_lt_of_mem x.2
    omega
  · simp_wf
    have h := List.sizeOf_lt_of_mem x.2
    obtain ⟨⟨k, v⟩, hm⟩ := x
    simp_all
    omega

/-- Model of `encoding/json`'s escaping of one character inside a JSON string. -/
def escapeChar (c : Char) : String :=
  if c = '"' then "\\\""
  else if c = '\\' then "\\\\"
  else if c = '\n' then "\\n"
  else if c = '\r' then "\\r"
  else if c = '\t' then "\\t"
  else if c = '<' then "\\u003c"
  else if c = '>' then "\\u003e"
  else if c = '&' then "\\u0026"
  else if c.toNat < 0x20 then
    "\\u00" ++ String.mk [Nat.digitChar (c.toNat / 16), Nat.digitChar (c.toNat % 16)]
  else String.mk [c]

/-- Model of `json.Marshal` applied to a Go string: quoted, escaped text. -/
def quoteString (s : String) : String :=
  "\"" ++ String.join (s.toList.map escapeChar) ++ "\""

mutual

/-- Model of `json.Marshal` applied to a parsed generic JSON value
(`interface{}`): the compact serialization with `,` separators. -/
def serialize : Json → String
  | .str s => quoteString s
  | .num lit => lit
  | .bool b => if b then "true" else "false"
  | .null => "null"
  | .arr elems => "[" ++ serializeItems elems ++ "]"
  | .obj fields => "\x7b" ++ serializeFields fields ++ "\x7d"

/-- Comma-separated serializations of the elements of a JSON array. -/
def serializeItems : List Json → String
  | [] => ""
  | [j] => serialize j
  | j :: j' :: rest => serialize j ++ "," ++ serializeItems (j' :: rest)

/-- Comma-separated `"key":value` serializations of the fields of a JSON
object (Go sorts map keys; key order is irrelevant to every property here). -/
def serializeFields : List (String × Json) → String
  | [] => ""
  | [(k, v)] => quoteString k ++ ":" ++ serialize v
  | (k, v) :: f :: rest => quoteString k ++ ":" ++ serialize v ++ "," ++ serializeFields (f :: rest)

end

mutual

/-- One element of an `Expression`'s `Arguments` slice (`[]interface{}` in Go):
either a terminal parsed JSON value left untouched by the decoder, or a nested
`*Expression`. -/
inductive Arg (V : Type) : Type where
  | json (j : Json)
  | expr (e : Expression V)

/-- The `Expression` struct: `Operator string`, `Arguments []interface{}`,
`Validator func(string, []interface{}) error` (modelled as an abstract token
of type `V`, `none` when the Go field is `nil`). -/
inductive Expression (V : Type) : Type where
  | mk (Operator : String) (Arguments : List (Arg V)) (Validator : Option V)

end

variable {V : Type}

/-- The `Operator` field. -/
def Expression.Operator : Expression V → String
  | .mk op _ _ => op

/-- The `Arguments` field. -/
def Expression.Arguments : Expression V → List (Arg V)
  | .mk _ args _ => args

/-- The `Validator` field. -/
def Expression.Validator : Expression V → Option V
  | .mk _ _ v => v

/-- Model of `(*Expression).Validate`: fail with "zero length operator name" when the
operator is empty; otherwise run the custom validator if one is set, else
succeed.  `f` interprets the validator token as the stored Go function. -/
def Expression.Validate (f : V → String → List (Arg V) → Option String)
    (e : Expression V) : Option String :=
  if e.Operator.length = 0 then
    some "zero length operator name"
  else
    match e.Validator with
    | some v => f v e.Operator e.Arguments
    | none => none

/-- Model of `getOperator`: the first element of the parts array, which must exist and
be a JSON string. -/
def getOperator (parts : List Json) : Except String String :=
  match parts with
  | [] => .error "expression must have an operator"
  | opInterface :: _ =>
    match opInterface with
    | .str operator => .ok operator
    | _ => .error ("expected a string operator, got " ++ goRender opInterface)

mutual

/-- Model of `fromParts`: populate the target expression from the parsed parts array.
On a `getOperator` failure or a nested-argument failure the target is
returned unchanged; otherwise `Operator`/`Arguments` are assigned and the
populated node's own `Validate` result becomes the decode result.  Returns
the final state of the target node (Go mutates it in place) together with
the error (`none` = success).  The source computes `getOperator parts` and
then loops over `parts[1:]`; here the empty/non-empty split is matched first
so that `parts[1:]` is the structural tail `rest`: the `[]` branch returns
exactly `getOperator []`'s error (see `fromParts_getOperator_error`), and the
non-empty branch consults `getOperator` unchanged. -/
def fromParts (f : V → String → List (Arg V) → Option String)
    (parts : List Json) (expression : Expression V) :
    Expression V × Option String :=
  match parts with
  | [] => (expression, some "expression must have an operator")
  | opInterface :: rest =>
    match getOperator (opInterface :: rest) with
    | .error opErr => (expression, some opErr)
    | .ok operator =>
      match decodeArgs f expression.Validator rest 0 with
      | .error nestedErr => (expression, some nestedErr)
      | .ok arguments =>
        let expression' : Expression V := .mk operator arguments expression.Validator
        (expression', expression'.Validate f)
termination_by sizeOf parts
decreasing_by
  simp

/-- The argument loop of `fromParts`: each part that is a JSON array is
recursively decoded into a fresh nested expression carrying the same
validator `v`; on nested failure the error is wrapped as
"arg {i} error: {cause}" and the loop aborts; any other part is kept as a
terminal argument unmodified. -/
def decodeArgs (f : V → String → List (Arg V) → Option String)
    (v : Option V) (args : List Json) (i : Nat) :
    Except String (List (Arg V)) :=
  match args with
  | [] => .ok []
  | arg :: rest =>
    match arg with
    | .arr nestedParts =>
      let nestedExpression : Expression V := .mk "" [] v
      match fromParts f nestedParts nestedExpression with
      | (nested', none) =>
        match decodeArgs f v rest (i + 1) with
        | .error e => .error e
        | .ok tail => .ok (.expr nested' :: tail)
      | (_, some nestedErr) =>
        .error ("arg " ++ toString i ++ " error: " ++ nestedErr)
    | _ =>
      match decodeArgs f v rest (i + 1) with
      | .error e => .error e
      | .ok tail => .ok (.json arg :: tail)
termination_by sizeOf args
decreasing_by
  all_goals simp
  all_goals try omega

end

mutual

/-- Model of `(*Expression).MarshalJSON`: validate the node itself first (pre-order),
then emit `[`, the JSON encoding of the operator, a `,`-prefixed encoding of
each argument in order, and `]`.  A nested expression argument is encoded by
a recursive `MarshalJSON` call via `json.Marshal`, whose error is wrapped the
way Go's `encoding/json` wraps a `MarshalJSON` error before `fromParts`'
"failed to marshal argument {i}" context is added. -/
def MarshalJSON (f : V → String → List (Arg V) → Option String)
    (expression : Expression V) : Except String String :=
  match expression.Validate f with
  | some validationErr => .error validationErr
  | none =>
    match marshalArgs f expression.Arguments 0 with
    | .error argErr => .error argErr
    | .ok argBytes =>
      .ok ("[" ++ quoteString expression.Operator ++ argBytes ++ "]")
termination_by sizeOf expression
decreasing_by
  cases expression; simp [Expression.Arguments]; try omega

/-- The argument loop of `MarshalJSON`: for each argument write `,` then its
encoding; a terminal argument is encoded with `json.Marshal` (`serialize`),
a nested expression by recursion; the first failure aborts with
"failed to marshal argument {i}: {cause}". -/
def marshalArgs (f : V → String → List (Arg V) → Option String)
    (arguments : List (Arg V)) (i : Nat) : Except String String :=
  match arguments with
  | [] => .ok ""
  | .json j :: rest =>
    match marshalArgs f rest (i + 1) with
    | .error e => .error e
    | .ok tailBytes => .ok ("," ++ serialize j ++ tailBytes)
  | .expr nested :: rest =>
    match MarshalJSON f nested with
    | .error nestedErr =>
      .error ("failed to marshal argument " ++ toString i ++ ": " ++
        "json: error calling MarshalJSON for type *jiffy.Expression: " ++ nestedErr)
    | .ok nestedBytes =>
      match marshalArgs f rest (i + 1) with
      | .error e => .error e
      | .ok tailBytes => .ok ("," ++ nestedBytes ++ tailBytes)
termination_by sizeOf arguments
decreasing_by
  all_goals simp
  all_goals try omega

end

/-! ### Unfolding lemmas

One rewrite step of the recursive definitions per list constructor.  These are
the workhorse equations for both the symbolic proofs and the concrete
evaluations below. -/

variable (f : V → String → List (Arg V) → Option String)

theorem fromParts_nil (e : Expression V) :
    fromParts f [] e = (e, some "expression must have an operator") := by
  rw [fromParts]

theorem fromParts_cons_str (op : String) (rest : List Json) (e : Expression V) :
    fromParts f (.str op :: rest) e =
      match decodeArgs f e.Validator rest 0 with
      | .error nestedErr => (e, some nestedErr)
      | .ok arguments =>
        ((.mk op arguments e.Validator : Expression V),
          Expression.Validate f (.mk op arguments e.Validator)) := by
  rw [fromParts]
  simp only [getOperator]

theorem fromParts_cons_notstr (p : Json) (h : ∀ s, p ≠ .str s)
    (rest : List Json) (e : Expression V) :
    fromParts f (p :: rest) e =
      (e, some ("expected a string operator, got " ++ goRender p)) := by
  rw [fromParts]
  cases p with
  | str s => exact absurd rfl (h s)
  | num lit => simp only [getOperator]
  | bool b => simp only [getOperator]
  | null => simp only [getOperator]
  | arr elems => simp only [getOperator]
  | obj fields => simp only [getOperator]

theorem fromParts_cons_num (lit : String) (rest : List Json) (e : Expression V) :
    fromParts f (.num lit :: rest) e =
      (e, some ("expected a string operator, got " ++ lit)) := by
  rw [fromParts_cons_notstr f (.num lit) (by intro s h; cases h), goRender]

theorem fromParts_cons_bool (b : Bool) (rest : List Json) (e : Expression V) :
    fromParts f (.bool b :: rest) e =
      (e, some ("expected a string operator, got " ++ if b then "true" else "false")) := by
  rw [fromParts_cons_notstr f (.bool b) (by intro s h; cases h), goRender]

theorem fromParts_cons_null (rest : List Json) (e : Expression V) :
    fromParts f (.null :: rest) e =
      (e, some ("expected a string operator, got " ++ "<nil>")) := by
  rw [fromParts_cons_notstr f .null (by intro s h; cases h), goRender]

theorem decodeArgs_nil (v : Option V) (i : Nat) : decodeArgs f v [] i = .ok [] := by
  rw [decodeArgs]

theorem decodeArgs_cons_arr (v : Option V) (nested rest : List Json) (i : Nat) :
    decodeArgs f v (.arr nested :: rest) i =
      match fromParts f nested (.mk "" [] v) with
      | (nested', none) =>
        (match decodeArgs f v rest (i + 1) with
         | .error e => .error e
         | .ok tail => .ok (.expr nested' :: tail))
      | (_, some nestedErr) =>
        .error ("arg " ++ toString i ++ " error: " ++ nestedErr) := by
  rw [decodeArgs]

theorem decodeArgs_cons_notarr (v : Option V) (p : Json) (h : ∀ l, p ≠ .arr l)
    (rest : List Json) (i : Nat) :
    decodeArgs f v (p :: rest) i =
      match decodeArgs f v rest (i + 1) with
      | .error e => .error e
      | .ok tail => .ok (.json p :: tail) := by
  rw [decodeArgs]
  cases p with
  | arr elems => exact absurd rfl (h elems)
  | str s => simp
  | num lit => simp
  | bool b => simp
  | null => simp
  | obj fields => simp

theorem decodeArgs_cons_str (v : Option V) (s : String) (rest : List Json) (i : Nat) :
    decodeArgs f v (.str s :: rest) i =
      match decodeArgs f v rest (i + 1) with
      | .error e => .error e
      | .ok tail => .ok (.json (.str s) :: tail) :=
  decodeArgs_cons_notarr f v _ (by intro l h; cases h) rest i

theorem decodeArgs_cons_num (v : Option V) (lit : String) (rest : List Json) (i : Nat) :
    decodeArgs f v (.num lit :: rest) i =
      match decodeArgs f v rest (i + 1) with
      | .error e => .error e
      | .ok tail => .ok (.json (.num lit) :: tail) :=
  decodeArgs_cons_notarr f v _ (by intro l h; cases h) rest i

theorem decodeArgs_cons_bool (v : Option V) (b : Bool) (rest : List Json) (i : Nat) :
    decodeArgs f v (.bool b :: rest) i =
      match decodeArgs f v rest (i + 1) with
      | .error e => .error e
      | .ok tail => .ok (.json (.bool b) :: tail) :=
  decodeArgs_cons_notarr f v _ (by intro l h; cases h) rest i

theorem decodeArgs_cons_null (v : Option V) (rest : List Json) (i : Nat) :
    decodeArgs f v (.null :: rest) i =
      match decodeArgs f v rest (i + 1) with
      | .error e => .error e
      | .ok tail => .ok (.json .null :: tail) :=
  decodeArgs_cons_notarr f v _ (by intro l h; cases h) rest i

theorem decodeArgs_cons_obj (v : Option V) (fields : List (String × Json))
    (rest : List Json) (i : Nat) :
    decodeArgs f v (.obj fields :: rest) i =
      match decodeArgs f v rest (i + 1) with
      | .error e => .error e
      | .ok tail => .ok (.json (.obj fields) :: tail) :=
  decodeArgs_cons_notarr f v _ (by intro l h; cases h) rest i

/-- Lemma: `fromParts` fails with exactly the `getOperator` error whenever
`getOperator` fails, the target left unchanged — in particular the inlined
`[]` branch of `fromParts` agrees with `getOperator []`. -/
theorem fromParts_getOperator_error (parts : List Json) (e : Expression V) (m : String)
    (h : getOperator parts = .error m) : fromParts f parts e = (e, some m) := by
  cases parts with
  | nil =>
    simp only [getOperator] at h
    cases h
    exact fromParts_nil f e
  | cons p rest =>
    rw [fromParts, h]

theorem MarshalJSON_eq (e : Expression V) :
    MarshalJSON f e =
      match e.Validate f with
      | some validationErr => .error validationErr
      | none =>
        match marshalArgs f e.Arguments 0 with
        | .error argErr => .error argErr
        | .ok argBytes =>
          .ok ("[" ++ quoteString e.Operator ++ argBytes ++ "]") := by
  rw [MarshalJSON]

theorem marshalArgs_nil (i : Nat) : marshalArgs f [] i = .ok "" := by
  rw [marshalArgs]

theorem marshalArgs_cons_json (j : Json) (rest : List (Arg V)) (i : Nat) :
    marshalArgs f (.json j :: rest) i =
      match marshalArgs f rest (i + 1) with
      | .error e => .error e
      | .ok tailBytes => .ok ("," ++ serialize j ++ tailBytes) := by
  rw [marshalArgs]

theorem marshalArgs_cons_expr (nested : Expression V) (rest : List (Arg V)) (i : Nat) :
    marshalArgs f (.expr nested :: rest) i =
      match MarshalJSON f nested with
      | .error nestedErr =>
        .error ("failed to marshal argument " ++ toString i ++ ": " ++
          "json: error calling MarshalJSON for type *jiffy.Expression: " ++ nestedErr)
      | .ok nestedBytes =>
        match marshalArgs f rest (i + 1) with
        | .error e => .error e
        | .ok tailBytes => .ok ("," ++ nestedBytes ++ tailBytes) := by
  rw [marshalArgs]

/-! ### Tree helpers

Derived views of an expression tree used to state the claims: the JSON value
an encoded tree denotes, the validator-erased shape of a tree, and the
node sequences in post order and in pre order. -/

mutual

/-- The JSON value form `[operator, arg...]` of an expression tree. -/
def toJson : Expression V → Json
  | .mk op args _ => .arr (.str op :: argsToJson args)

/-- The JSON value form of an argument list: terminals kept as they are,
nested expressions turned back into arrays. -/
def argsToJson : List (Arg V) → List Json
  | [] => []
  | .json j :: rest => j :: argsToJson rest
  | .expr e :: rest => toJson e :: argsToJson rest

end

mutual

/-- The validator-erased shape of a tree: operator, argument sequence and
nesting structure, with every validator field dropped.  Two trees are
"semantically equal" exactly when their skeletons coincide. -/
def skeleton : Expression V → Expression Unit
  | .mk op args _ => .mk op (skeletonArgs args) none

/-- Validator-erased shapes of an argument list. -/
def skeletonArgs : List (Arg V) → List (Arg Unit)
  | [] => []
  | .json j :: rest => .json j :: skeletonArgs rest
  | .expr e :: rest => .expr (skeleton e) :: skeletonArgs rest

end

mutual

/-- All nodes of a tree in post order (children left to right, then the
node itself). -/
def postorderNodes : Expression V → List (Expression V)
  | .mk op args val => postorderArgs args ++ [.mk op args val]

/-- Post-order node sequences of the expression arguments, left to right. -/
def postorderArgs : List (Arg V) → List (Expression V)
  | [] => []
  | .json _ :: rest => postorderArgs rest
  | .expr e :: rest => postorderNodes e ++ postorderArgs rest

end

mutual

/-- All nodes of a tree in pre order (the node itself, then children left to
right). -/
def preorderNodes : Expression V → List (Expression V)
  | .mk op args val => .mk op args val :: preorderArgs args

/-- Pre-order node sequences of the expression arguments, left to right. -/
def preorderArgs : List (Arg V) → List (Expression V)
  | [] => []
  | .json _ :: rest => preorderArgs rest
  | .expr e :: rest => preorderNodes e ++ preorderArgs rest

end

/-- The validator slot `val` accepts everything under interpretation `f`:
either absent, or a function returning `nil` on every input. -/
def Accepting (f : V → String → List (Arg V) → Option String)
    (val : Option V) : Prop :=
  ∀ v, val = some v → ∀ op args, f v op args = none

mutual

/-- A caller-built tree as constrained by the round-trip claim: every node
has a non-empty operator and an absent or always-accepting validator, and
every argument is either a terminal non-array JSON value or such a tree
(a raw-array terminal would be reinterpreted as a nested expression by the
decoder). -/
inductive GoodExpr (f : V → String → List (Arg V) → Option String) :
    Expression V → Prop where
  | mk (op : String) (args : List (Arg V)) (val : Option V) :
      op ≠ "" → Accepting f val → GoodArgs f args →
      GoodExpr f (.mk op args val)

/-- Argument lists of round-trippable trees. -/
inductive GoodArgs (f : V → String → List (Arg V) → Option String) :
    List (Arg V) → Prop where
  | nil : GoodArgs f []
  | json (j : Json) (rest : List (Arg V)) :
      (∀ l, j ≠ .arr l) → GoodArgs f rest → GoodArgs f (.json j :: rest)
  | expr (e : Expression V) (rest : List (Arg V)) :
      GoodExpr f e → GoodArgs f rest → GoodArgs f (.expr e :: rest)

end

/-- Strong induction over expression trees: to prove `P` of a node it
suffices to assume `P` of every nested expression argument. -/
theorem Expression.inductionOn (P : Expression V → Prop)
    (h : ∀ op args val, (∀ e', Arg.expr e' ∈ args → P e') → P (.mk op args val)) :
    ∀ e, P e := by
  intro e
  suffices h' : ∀ (n : Nat) (e : Expression V), sizeOf e ≤ n → P e from
    h' (sizeOf e) e le_rfl
  intro n
  induction n with
  | zero =>
    intro e he
    cases e with
    | mk op args val =>
      simp only [Expression.mk.sizeOf_spec] at he
      omega
  | succ n ih =>
    intro e he
    cases e with
    | mk op args val =>
      apply h
      intro e' hmem
      apply ih
      have h1 := List.sizeOf_lt_of_mem hmem
      simp only [Expression.mk.sizeOf_spec] at he
      simp only [Arg.expr.sizeOf_spec] at h1
      omega

/-- A Go string has zero length exactly when it is the empty string. -/
theorem string_length_eq_zero_iff (s : String) : s.length = 0 ↔ s = "" := by
  constructor
  · intro h
    cases s with
    | mk data =>
      simp [String.length] at h
      simp [h]
  · intro h
    simp [h]

/-! ### C4 — the Validate contract -/

/-- C4: `Validate` fails with "zero length operator name" whenever the
operator is empty, regardless of the attached validator and of how it is
interpreted; with a non-empty operator and a validator set it returns exactly
the validator's result on `(Operator, Arguments)`; with a non-empty operator
and no validator it succeeds.  In particular it never recurses into nested
expression arguments: its result is exactly determined by these three
clauses. -/
theorem C4_validate_contract :
    ∀ (V : Type) (f : V → String → List (Arg V) → Option String)
      (e : Expression V),
      (e.Operator = "" → Expression.Validate f e = some "zero length operator name") ∧
      (e.Operator ≠ "" → ∀ v, e.Validator = some v →
        Expression.Validate f e = f v e.Operator e.Arguments) ∧
      (e.Operator ≠ "" → e.Validator = none → Expression.Validate f e = none) := by
  intro V f e
  refine ⟨?_, ?_, ?_⟩
  · intro h
    rw [Expression.Validate, if_pos ((string_length_eq_zero_iff _).mpr h)]
  · intro h v hv
    rw [Expression.Validate,
      if_neg (fun hl => h ((string_length_eq_zero_iff _).mp hl)), hv]
  · intro h hv
    rw [Expression.Validate,
      if_neg (fun hl => h ((string_length_eq_zero_iff _).mp hl)), hv]

/-- Witness for C4: a rejecting validator is ignored when the operator is
empty; it is consulted verbatim when the operator is non-empty; no validator
means success. -/
theorem C4_validate_contract_witness :
    Expression.Validate (fun (_ : Unit) _ _ => some "rejected")
      (.mk "" [] (some ())) = some "zero length operator name" ∧
    Expression.Validate (fun (_ : Unit) _ _ => some "rejected")
      (.mk "x" [] (some ())) = some "rejected" ∧
    Expression.Validate (fun (_ : Unit) _ _ => some "rejected")
      (.mk "x" [] none) = none := by
  refine ⟨?_, ?_, ?_⟩
  · exact (C4_validate_contract Unit _ _).1 rfl
  · exact ((C4_validate_contract Unit _ _).2.1 (by decide) () rfl)
  · exact ((C4_validate_contract Unit _ _).2.2 (by decide) rfl)

/-! ### C5 — assignment happens only after all arguments resolve -/

/-- C5: the target node of a decode is left completely unchanged by a
structural failure (`getOperator` error) and by a nested-argument failure;
only when every argument resolves are `Operator` and `Arguments` assigned —
and they are assigned *before* the node's own `Validate` runs, so a
`Validate`-originated failure (empty operator or validator rejection) leaves
the node overwritten with the attempted values. -/
theorem C5_frame :
    ∀ (V : Type) (f : V → String → List (Arg V) → Option String)
      (parts : List Json) (e : Expression V),
      (∀ m, getOperator parts = .error m → fromParts f parts e = (e, some m)) ∧
      (∀ op m, getOperator parts = .ok op →
        decodeArgs f e.Validator (parts.drop 1) 0 = .error m →
        fromParts f parts e = (e, some m)) ∧
      (∀ op args, getOperator parts = .ok op →
        decodeArgs f e.Validator (parts.drop 1) 0 = .ok args →
        fromParts f parts e =
          ((.mk op args e.Validator : Expression V),
            Expression.Validate f (.mk op args e.Validator))) := by
  intro V f parts e
  refine ⟨fun m h => fromParts_getOperator_error f parts e m h, ?_, ?_⟩
  · intro op m hop hargs
    cases parts with
    | nil => simp [getOperator] at hop
    | cons p rest =>
      cases p with
      | str s =>
        simp only [getOperator] at hop
        cases hop
        simp only [List.drop_succ_cons, List.drop_zero] at hargs
        rw [fromParts_cons_str, hargs]
      | num lit => simp [getOperator] at hop
      | bool b => simp [getOperator] at hop
      | null => simp [getOperator] at hop
      | arr elems => simp [getOperator] at hop
      | obj fields => simp [getOperator] at hop
  · intro op args hop hargs
    cases parts with
    | nil => simp [getOperator] at hop
    | cons p rest =>
      cases p with
      | str s =>
        simp only [getOperator] at hop
        cases hop
        simp only [List.drop_succ_cons, List.drop_zero] at hargs
        rw [fromParts_cons_str, hargs]
      | num lit => simp [getOperator] at hop
      | bool b => simp [getOperator] at hop
      | null => simp [getOperator] at hop
      | arr elems => simp [getOperator] at hop
      | obj fields => simp [getOperator] at hop

/-- Witness for C5: decoding `["x"]` into a node that already holds operator
"old" and a terminal argument: a structural failure (`[42]`) and a nested
failure (`["x", ["oops"]]`, rejecting validator) leave the node untouched,
while a validator rejection at the node itself overwrites its fields. -/
theorem C5_frame_witness :
    fromParts (fun (_ : Unit) _ _ => some "no") [.num "42"]
      (.mk "old" [.json .null] (some ())) =
      (.mk "old" [.json .null] (some ()), some "expected a string operator, got 42") ∧
    fromParts (fun (_ : Unit) _ _ => some "no") [.str "x", .arr [.str "y"]]
      (.mk "old" [.json .null] (some ())) =
      (.mk "old" [.json .null] (some ()), some "arg 0 error: no") ∧
    fromParts (fun (_ : Unit) _ _ => some "no") [.str "x"]
      (.mk "old" [.json .null] (some ())) =
      (.mk "x" [] (some ()), some "no") := by
  refine ⟨?_, ?_, ?_⟩
  · apply (C5_frame Unit _ _ _).1
    simp [getOperator, goRender]
  · apply (C5_frame Unit _ _ _).2.1 "x"
    · simp [getOperator]
    · simp only [Expression.Validator, List.drop_succ_cons, List.drop_zero]
      rw [decodeArgs_cons_arr, fromParts_cons_str, decodeArgs_nil]
      simp +decide [Expression.Validate, Expression.Validator, Expression.Operator,
        Expression.Arguments]
  · have h := (C5_frame Unit (fun (_ : Unit) _ _ => some "no")
      [.str "x"] (.mk "old" [.json .null] (some ()))).2.2 "x" []
      (by simp [getOperator]) (by simp [Expression.Validator, List.drop, decodeArgs_nil])
    rw [h]
    simp +decide [Expression.Validate, Expression.Validator, Expression.Operator,
      Expression.Arguments]

/-! ### C8 — getOperator error messages -/

/-- C8: decoding an empty array fails with "expression must have an
operator"; an array whose first element is not a JSON string fails with
"expected a string operator, got {value}", the offending value rendered by
Go's `%v`: `42` for the number 42, `true`/`false` for booleans, `<nil>` for
JSON null. -/
theorem C8_operator_errors :
    ∀ (V : Type) (f : V → String → List (Arg V) → Option String)
      (rest : List Json) (e : Expression V),
      fromParts f [] e = (e, some "expression must have an operator") ∧
      fromParts f (.num "42" :: rest) e =
        (e, some "expected a string operator, got 42") ∧
      fromParts f (.bool true :: rest) e =
        (e, some "expected a string operator, got true") ∧
      fromParts f (.bool false :: rest) e =
        (e, some "expected a string operator, got false") ∧
      fromParts f (.null :: rest) e =
        (e, some "expected a string operator, got <nil>") ∧
      (∀ p, (∀ s, p ≠ .str s) →
        fromParts f (p :: rest) e =
          (e, some ("expected a string operator, got " ++ goRender p))) := by
  intro V f rest e
  refine ⟨fromParts_nil f e, ?_, ?_, ?_, ?_, fun p h => fromParts_cons_notstr f p h rest e⟩
  · rw [fromParts_cons_num]
    exact congrArg (fun m => (e, some m)) (by decide)
  · rw [fromParts_cons_bool]
    exact congrArg (fun m => (e, some m)) (by decide)
  · rw [fromParts_cons_bool]
    exact congrArg (fun m => (e, some m)) (by decide)
  · rw [fromParts_cons_null]
    exact congrArg (fun m => (e, some m)) (by decide)

/-- Witness for C8: the error cases at concrete inputs (from the test
file: `[42, "oops"]`, `[true, "oops"]`, `[null, "oops"]`, `[]`), plus a
non-string head of object shape. -/
theorem C8_operator_errors_witness :
    fromParts (fun (_ : Unit) _ _ => none) [] (.mk "" [] none) =
      (.mk "" [] none, some "expression must have an operator") ∧
    fromParts (fun (_ : Unit) _ _ => none) [.num "42", .str "oops"]
      (.mk "" [] none) =
      (.mk "" [] none, some "expected a string operator, got 42") ∧
    fromParts (fun (_ : Unit) _ _ => none) [.bool true, .str "oops"]
      (.mk "" [] none) =
      (.mk "" [] none, some "expected a string operator, got true") ∧
    fromParts (fun (_ : Unit) _ _ => none) [.null, .str "oops"]
      (.mk "" [] none) =
      (.mk "" [] none, some "expected a string operator, got <nil>") ∧
    fromParts (fun (_ : Unit) _ _ => none) [.obj [], .str "oops"]
      (.mk "" [] none) =
      (.mk "" [] none,
        some ("expected a string operator, got " ++ goRender (.obj []))) := by
  refine ⟨(C8_operator_errors Unit _ [] _).1,
    (C8_operator_errors Unit _ [.str "oops"] _).2.1,
    (C8_operator_errors Unit _ [.str "oops"] _).2.2.1,
    (C8_operator_errors Unit _ [.str "oops"] _).2.2.2.2.1,
    (C8_operator_errors Unit _ [.str "oops"] _).2.2.2.2.2 (.obj [])
      (by intro s h; cases h)⟩

/-! ### C10 — encoding a zero-argument expression -/

/-- C10: encoding a node with a non-empty operator, no validator and no
arguments succeeds and yields exactly `[` ++ JSON-encoded operator ++ `]`:
the `,` separator is only ever written immediately before an argument, so a
zero-argument expression has no trailing comma. -/
theorem C10_marshal_no_arguments :
    ∀ (V : Type) (f : V → String → List (Arg V) → Option String) (op : String),
      op ≠ "" →
      MarshalJSON f (.mk op [] none) = .ok ("[" ++ quoteString op ++ "]") := by
  intro V f op h
  have hval : Expression.Validate f (.mk op [] none : Expression V) = none := by
    rw [Expression.Validate]
    simp only [Expression.Operator, Expression.Validator]
    rw [if_neg (fun hl => h ((string_length_eq_zero_iff _).mp hl))]
  rw [MarshalJSON_eq, hval]
  simp only [Expression.Arguments, Expression.Operator, marshalArgs_nil,
    String.append_empty]

/-- Witness for C10: the zero-argument `["void"]` case from the repository's
tests. -/
theorem C10_marshal_no_arguments_witness :
    MarshalJSON (fun (_ : Unit) _ _ => none) (.mk "void" [] none) =
      .ok "[\"void\"]" := by
  rw [C10_marshal_no_arguments Unit _ "void" (by decide)]
  rfl

/-! ### C9 — there is no recursion-depth guard -/

mutual

/-- Array-nesting depth of a parsed JSON value (`0` for non-arrays). -/
def jsonDepth : Json → Nat
  | .arr elems => partsDepth elems + 1
  | _ => 0

/-- Greatest array-nesting depth of the elements of a parts list. -/
def partsDepth : List Json → Nat
  | [] => 0
  | j :: rest => max (jsonDepth j) (partsDepth rest)

end

/-- A valid expression parts list of nesting depth exactly `n`:
`["a"]`, `["a", ["a"]]`, `["a", ["a", ["a"]]]`, ... -/
def nestParts : Nat → List Json
  | 0 => [.str "a"]
  | n + 1 => [.str "a", .arr (nestParts n)]

theorem partsDepth_nestParts (n : Nat) : partsDepth (nestParts n) = n := by
  induction n with
  | zero => simp [nestParts, partsDepth, jsonDepth]
  | succ n ih =>
    simp [nestParts, partsDepth, jsonDepth, ih]

/-- Without a validator, decoding the depth-`n` nest succeeds, for every
`n`: the decoder recurses as deep as the input nests. -/
theorem fromParts_nestParts (n : Nat) :
    ∃ ne : Expression Unit,
      fromParts (fun _ _ _ => none) (nestParts n) (.mk "" [] none) = (ne, none) := by
  induction n with
  | zero =>
    refine ⟨.mk "a" [] none, ?_⟩
    rw [nestParts, fromParts_cons_str, decodeArgs_nil]
    simp +decide [Expression.Validate, Expression.Validator, Expression.Operator,
      Expression.Arguments]
  | succ n ih =>
    obtain ⟨ne, hne⟩ := ih
    refine ⟨.mk "a" [.expr ne] none, ?_⟩
    rw [nestParts, fromParts_cons_str]
    simp only [Expression.Validator]
    rw [decodeArgs_cons_arr, hne, decodeArgs_nil]
    simp +decide [Expression.Validate, Expression.Validator, Expression.Operator,
      Expression.Arguments]

/-- Refutation of C9 as stated: no depth bound `D` exists past which decoding
fails — for every candidate bound the deeper nest `nestParts (D + 1)` still
decodes successfully (the code has no `MaxDepthExceeded` error or any
recursion-depth guard at all). -/
theorem C9_counterexample :
    ¬ ∃ D : Nat, ∀ parts : List Json,
      partsDepth parts > D →
      (fromParts (fun (_ : Unit) _ _ => none) parts (.mk "" [] none)).2 ≠ none := by
  rintro ⟨D, hD⟩
  obtain ⟨ne, hne⟩ := fromParts_nestParts (D + 1)
  exact hD (nestParts (D + 1))
    (by rw [partsDepth_nestParts]; omega)
    (by rw [hne])

/-- C9 amended: the decoder imposes no maximum nesting depth — for every
`n`, well-formed input of nesting depth exactly `n` decodes successfully
(the Go implementation's recursion depth simply equals the tree depth, and
stack exhaustion is outside this model). -/
theorem C9_no_depth_limit :
    ∀ n : Nat,
      partsDepth (nestParts n) = n ∧
      ∃ ne : Expression Unit,
        fromParts (fun _ _ _ => none) (nestParts n) (.mk "" [] none) =
          (ne, none) :=
  fun n => ⟨partsDepth_nestParts n, fromParts_nestParts n⟩

/-! ### C6 — validator inheritance through decoded trees -/

/-! ### Directional lemmas

One-step consequences of the unfolding lemmas, split by the outcome of the
side computations, plus the matching inversion principles for successful
runs. -/

theorem fromParts_cons_str_ok (op : String) (rest : List Json)
    (e : Expression V) (args : List (Arg V))
    (h : decodeArgs f e.Validator rest 0 = .ok args) :
    fromParts f (.str op :: rest) e =
      ((.mk op args e.Validator : Expression V),
        Expression.Validate f (.mk op args e.Validator)) := by
  rw [fromParts_cons_str, h]

theorem fromParts_cons_str_err (op : String) (rest : List Json)
    (e : Expression V) (m : String)
    (h : decodeArgs f e.Validator rest 0 = .error m) :
    fromParts f (.str op :: rest) e = (e, some m) := by
  rw [fromParts_cons_str, h]

theorem decodeArgs_cons_arr_ok (v : Option V) (nested rest : List Json)
    (i : Nat) (ne : Expression V) (tail : List (Arg V))
    (h1 : fromParts f nested (.mk "" [] v) = (ne, none))
    (h2 : decodeArgs f v rest (i + 1) = .ok tail) :
    decodeArgs f v (.arr nested :: rest) i = .ok (.expr ne :: tail) := by
  rw [decodeArgs_cons_arr, h1, h2]

theorem decodeArgs_cons_arr_nested_err (v : Option V) (nested rest : List Json)
    (i : Nat) (ne : Expression V) (m : String)
    (h1 : fromParts f nested (.mk "" [] v) = (ne, some m)) :
    decodeArgs f v (.arr nested :: rest) i =
      .error ("arg " ++ toString i ++ " error: " ++ m) := by
  rw [decodeArgs_cons_arr, h1]

theorem decodeArgs_cons_arr_tail_err (v : Option V) (nested rest : List Json)
    (i : Nat) (ne : Expression V) (m : String)
    (h1 : fromParts f nested (.mk "" [] v) = (ne, none))
    (h2 : decodeArgs f v rest (i + 1) = .error m) :
    decodeArgs f v (.arr nested :: rest) i = .error m := by
  rw [decodeArgs_cons_arr, h1, h2]

theorem decodeArgs_cons_notarr_ok (v : Option V) (p : Json)
    (hp : ∀ l, p ≠ .arr l) (rest : List Json) (i : Nat) (tail : List (Arg V))
    (h : decodeArgs f v rest (i + 1) = .ok tail) :
    decodeArgs f v (p :: rest) i = .ok (.json p :: tail) := by
  rw [decodeArgs_cons_notarr f v p hp, h]

theorem decodeArgs_cons_notarr_err (v : Option V) (p : Json)
    (hp : ∀ l, p ≠ .arr l) (rest : List Json) (i : Nat) (m : String)
    (h : decodeArgs f v rest (i + 1) = .error m) :
    decodeArgs f v (p :: rest) i = .error m := by
  rw [decodeArgs_cons_notarr f v p hp, h]

/-- Inversion of a successful decode: the parts had a string head, the
arguments resolved, the node was populated and its own validation passed. -/
theorem fromParts_ok_inv (parts : List Json) (e e' : Expression V)
    (h : fromParts f parts e = (e', none)) :
    ∃ op rest args, parts = .str op :: rest ∧
      decodeArgs f e.Validator rest 0 = .ok args ∧
      e' = .mk op args e.Validator ∧
      Expression.Validate f (.mk op args e.Validator) = none := by
  cases parts with
  | nil =>
    rw [fromParts_nil] at h
    simp [Prod.ext_iff] at h
  | cons p rest =>
    cases p with
    | str op =>
      rw [fromParts_cons_str] at h
      cases hargs : decodeArgs f e.Validator rest 0 with
      | error m =>
        rw [hargs] at h
        have h' : ((e, some m) : Expression V × Option String) = (e', none) := h
        simp [Prod.ext_iff] at h'
      | ok args =>
        rw [hargs] at h
        have h' : ((Expression.mk op args e.Validator,
            Expression.Validate f (Expression.mk op args e.Validator)) :
            Expression V × Option String) = (e', none) := h
        injection h' with h1 h2
        exact ⟨op, rest, args, rfl, hargs, h1.symm, h2⟩
    | num lit =>
      rw [fromParts_cons_num] at h
      simp [Prod.ext_iff] at h
    | bool b =>
      rw [fromParts_cons_bool] at h
      simp [Prod.ext_iff] at h
    | null =>
      rw [fromParts_cons_null] at h
      simp [Prod.ext_iff] at h
    | arr elems =>
      rw [fromParts_cons_notstr f _ (by intro s hs; cases hs)] at h
      simp [Prod.ext_iff] at h
    | obj fields =>
      rw [fromParts_cons_notstr f _ (by intro s hs; cases hs)] at h
      simp [Prod.ext_iff] at h

/-- Inversion of a successful argument decode at an array argument. -/
theorem decodeArgs_cons_arr_ok_inv (v : Option V) (nested rest : List Json)
    (i : Nat) (out : List (Arg V))
    (h : decodeArgs f v (.arr nested :: rest) i = .ok out) :
    ∃ ne tail, fromParts f nested (.mk "" [] v) = (ne, none) ∧
      decodeArgs f v rest (i + 1) = .ok tail ∧ out = .expr ne :: tail := by
  rw [decodeArgs_cons_arr] at h
  cases hn : fromParts f nested (.mk "" [] v) with
  | mk ne res =>
    cases res with
    | none =>
      rw [hn] at h
      cases ht : decodeArgs f v rest (i + 1) with
      | error m =>
        rw [ht] at h
        have h' : (Except.error m : Except String (List (Arg V))) = .ok out := h
        cases h'
      | ok tail =>
        rw [ht] at h
        have h' : Except.ok (Arg.expr ne :: tail) = Except.ok out := h
        injection h' with h''
        exact ⟨ne, tail, rfl, rfl, h''.symm⟩
    | some m =>
      rw [hn] at h
      have h' : (Except.error ("arg " ++ toString i ++ " error: " ++ m) :
          Except String (List (Arg V))) = .ok out := h
      cases h'

/-- Inversion of a successful argument decode at a non-array argument. -/
theorem decodeArgs_cons_notarr_ok_inv (v : Option V) (p : Json)
    (hp : ∀ l, p ≠ .arr l) (rest : List Json) (i : Nat) (out : List (Arg V))
    (h : decodeArgs f v (p :: rest) i = .ok out) :
    ∃ tail, decodeArgs f v rest (i + 1) = .ok tail ∧ out = .json p :: tail := by
  rw [decodeArgs_cons_notarr f v p hp] at h
  cases ht : decodeArgs f v rest (i + 1) with
  | error m =>
    rw [ht] at h
    have h' : (Except.error m : Except String (List (Arg V))) = .ok out := h
    cases h'
  | ok tail =>
    rw [ht] at h
    have h' : Except.ok (Arg.json p :: tail) = Except.ok out := h
    injection h' with h''
    exact ⟨tail, rfl, h''.symm⟩

theorem MarshalJSON_validate_err (e : Expression V) (m : String)
    (h : Expression.Validate f e = some m) :
    MarshalJSON f e = .error m := by
  rw [MarshalJSON_eq, h]

theorem MarshalJSON_ok_of (e : Expression V) (ab : String)
    (h : Expression.Validate f e = none)
    (h2 : marshalArgs f e.Arguments 0 = .ok ab) :
    MarshalJSON f e = .ok ("[" ++ quoteString e.Operator ++ ab ++ "]") := by
  rw [MarshalJSON_eq, h, h2]

theorem MarshalJSON_args_err (e : Expression V) (m : String)
    (h : Expression.Validate f e = none)
    (h2 : marshalArgs f e.Arguments 0 = .error m) :
    MarshalJSON f e = .error m := by
  rw [MarshalJSON_eq, h, h2]

theorem marshalArgs_cons_json_ok (j : Json) (rest : List (Arg V)) (i : Nat)
    (tb : String) (h : marshalArgs f rest (i + 1) = .ok tb) :
    marshalArgs f (.json j :: rest) i = .ok ("," ++ serialize j ++ tb) := by
  rw [marshalArgs_cons_json, h]

theorem marshalArgs_cons_json_err (j : Json) (rest : List (Arg V)) (i : Nat)
    (m : String) (h : marshalArgs f rest (i + 1) = .error m) :
    marshalArgs f (.json j :: rest) i = .error m := by
  rw [marshalArgs_cons_json, h]

theorem marshalArgs_cons_expr_ok (nested : Expression V) (rest : List (Arg V))
    (i : Nat) (nb tb : String)
    (h1 : MarshalJSON f nested = .ok nb)
    (h2 : marshalArgs f rest (i + 1) = .ok tb) :
    marshalArgs f (.expr nested :: rest) i = .ok ("," ++ nb ++ tb) := by
  rw [marshalArgs_cons_expr, h1, h2]

theorem marshalArgs_cons_expr_nested_err (nested : Expression V)
    (rest : List (Arg V)) (i : Nat) (m : String)
    (h1 : MarshalJSON f nested = .error m) :
    marshalArgs f (.expr nested :: rest) i =
      .error ("failed to marshal argument " ++ toString i ++ ": " ++
        "json: error calling MarshalJSON for type *jiffy.Expression: " ++ m) := by
  rw [marshalArgs_cons_expr, h1]

theorem marshalArgs_cons_expr_tail_err (nested : Expression V)
    (rest : List (Arg V)) (i : Nat) (nb m : String)
    (h1 : MarshalJSON f nested = .ok nb)
    (h2 : marshalArgs f rest (i + 1) = .error m) :
    marshalArgs f (.expr nested :: rest) i = .error m := by
  rw [marshalArgs_cons_expr, h1, h2]

/-! ### C6 — validator inheritance through decoded trees -/

/-- Every node of a successfully decoded tree (and of every decoded
argument) carries exactly the inherited validator: helper for C6, proved by
strong induction on the size of the input. -/
theorem decode_validator_inherit :
    ∀ (n : Nat) (V : Type) (f : V → String → List (Arg V) → Option String),
      (∀ (parts : List Json) (e e' : Expression V), sizeOf parts ≤ n →
        fromParts f parts e = (e', none) →
        ∀ x ∈ postorderNodes e', x.Validator = e.Validator) ∧
      (∀ (v : Option V) (args : List Json) (i : Nat) (out : List (Arg V)),
        sizeOf args ≤ n →
        decodeArgs f v args i = .ok out →
        ∀ x ∈ postorderArgs out, x.Validator = v) := by
  intro n
  induction n using Nat.strong_induction_on with
  | _ n ih =>
    intro V f
    constructor
    · intro parts e e' hsz hdec x hx
      obtain ⟨op, rest, args, hp, hargs, he', hval⟩ :=
        fromParts_ok_inv f parts e e' hdec
      subst hp
      subst he'
      rw [postorderNodes] at hx
      rcases List.mem_append.mp hx with hx1 | hx2
      · exact (ih (sizeOf rest) (by simp at hsz ⊢; omega) V f).2
          e.Validator rest 0 args le_rfl hargs x hx1
      · rw [List.mem_singleton] at hx2
        subst hx2
        rfl
    · intro v args i out hsz hdec x hx
      cases args with
      | nil =>
        rw [decodeArgs_nil] at hdec
        injection hdec with h
        subst h
        rw [postorderArgs] at hx
        cases hx
      | cons p rest =>
        cases p with
        | arr nested =>
          obtain ⟨ne, tail, hn, ht, rfl⟩ :=
            decodeArgs_cons_arr_ok_inv f v nested rest i out hdec
          rw [postorderArgs] at hx
          rcases List.mem_append.mp hx with hx1 | hx2
          · exact (ih (sizeOf nested) (by simp at hsz ⊢; omega) V f).1 nested
              (.mk "" [] v) ne le_rfl hn x hx1
          · exact (ih (sizeOf rest) (by simp at hsz ⊢; omega) V f).2
              v rest (i + 1) tail le_rfl ht x hx2
        | str s =>
          obtain ⟨tail, ht, rfl⟩ := decodeArgs_cons_notarr_ok_inv f v _
            (by intro l hl; cases hl) rest i out hdec
          rw [postorderArgs] at hx
          exact (ih (sizeOf rest) (by simp at hsz ⊢; omega) V f).2
            v rest (i + 1) tail le_rfl ht x hx
        | num lit =>
          obtain ⟨tail, ht, rfl⟩ := decodeArgs_cons_notarr_ok_inv f v _
            (by intro l hl; cases hl) rest i out hdec
          rw [postorderArgs] at hx
          exact (ih (sizeOf rest) (by simp at hsz ⊢; omega) V f).2
            v rest (i + 1) tail le_rfl ht x hx
        | bool b =>
          obtain ⟨tail, ht, rfl⟩ := decodeArgs_cons_notarr_ok_inv f v _
            (by intro l hl; cases hl) rest i out hdec
          rw [postorderArgs] at hx
          exact (ih (sizeOf rest) (by simp at hsz ⊢; omega) V f).2
            v rest (i + 1) tail le_rfl ht x hx
        | null =>
          obtain ⟨tail, ht, rfl⟩ := decodeArgs_cons_notarr_ok_inv f v _
            (by intro l hl; cases hl) rest i out hdec
          rw [postorderArgs] at hx
          exact (ih (sizeOf rest) (by simp at hsz ⊢; omega) V f).2
            v rest (i + 1) tail le_rfl ht x hx
        | obj fields =>
          obtain ⟨tail, ht, rfl⟩ := decodeArgs_cons_notarr_ok_inv f v _
            (by intro l hl; cases hl) rest i out hdec
          rw [postorderArgs] at hx
          exact (ih (sizeOf rest) (by simp at hsz ⊢; omega) V f).2
            v rest (i + 1) tail le_rfl ht x hx

/-- C6: every node the decoder constructs for a nested array argument
carries the same validator as its parent, so every node of a successfully
decoded tree — the root and all descendants at any depth — holds the
validator of the node originally passed to decode. -/
theorem C6_validator_inheritance :
    ∀ (V : Type) (f : V → String → List (Arg V) → Option String)
      (parts : List Json) (e e' : Expression V),
      fromParts f parts e = (e', none) →
      ∀ x ∈ postorderNodes e', x.Validator = e.Validator := by
  intro V f parts e e' hdec
  exact (decode_validator_inherit (sizeOf parts) V f).1 parts e e' le_rfl hdec

/-- Witness for C6: decoding `["or", ["void"]]` with a validator token in
the target node: both the decoded root and the decoder-constructed nested
node carry that token. -/
theorem C6_validator_inheritance_witness :
    (Expression.mk "or" [.expr (.mk "void" [] (some ()))] (some ()) :
      Expression Unit).Validator = some () ∧
    (Expression.mk "void" [] (some ()) : Expression Unit).Validator = some () := by
  have hvoid : fromParts (fun (_ : Unit) _ _ => none)
      [.str "void"] (.mk "" [] (some ())) =
      (.mk "void" [] (some ()), none) := by
    rw [fromParts_cons_str_ok _ "void" [] _ [] (decodeArgs_nil _ _ _)]
    simp +decide [Expression.Validate, Expression.Validator, Expression.Operator,
      Expression.Arguments]
  have hmain : fromParts (fun (_ : Unit) _ _ => none)
      [.str "or", .arr [.str "void"]] (.mk "" [] (some ())) =
      (.mk "or" [.expr (.mk "void" [] (some ()))] (some ()), none) := by
    rw [fromParts_cons_str_ok _ "or" _ _ [.expr (.mk "void" [] (some ()))]
      (decodeArgs_cons_arr_ok _ _ _ _ _ _ _ hvoid (decodeArgs_nil _ _ _))]
    simp +decide [Expression.Validate, Expression.Validator, Expression.Operator,
      Expression.Arguments]
  constructor
  · apply C6_validator_inheritance Unit (fun _ _ _ => none)
      [.str "or", .arr [.str "void"]] (.mk "" [] (some ())) _ hmain
    rw [postorderNodes, postorderArgs, postorderNodes, postorderArgs]
    simp
  · apply C6_validator_inheritance Unit (fun _ _ _ => none)
      [.str "or", .arr [.str "void"]] (.mk "" [] (some ())) _ hmain
    rw [postorderNodes, postorderArgs, postorderNodes, postorderArgs]
    simp

/-! ### C7 — nested error wrapping and sibling short-circuit -/

/-- A part decodes cleanly as an argument under validator `v`: non-arrays
always do (they are kept as terminals), an array does when its recursive
decode succeeds. -/
def argOk (f : V → String → List (Arg V) → Option String)
    (v : Option V) : Json → Prop
  | .arr nested => (fromParts f nested (.mk "" [] v)).2 = none
  | _ => True

/-- When every part before position `pre.length` decodes cleanly and the
array argument there fails with `cause`, the argument loop fails with
exactly "arg {i + pre.length} error: {cause}" — for every continuation
`ys`, which is therefore never examined. -/
theorem decodeArgs_fail_at (v : Option V) (pre nested ys : List Json)
    (i : Nat) (cause : String)
    (hpre : ∀ x ∈ pre, argOk f v x)
    (hfail : (fromParts f nested (.mk "" [] v)).2 = some cause) :
    decodeArgs f v (pre ++ .arr nested :: ys) i =
      .error ("arg " ++ toString (i + pre.length) ++ " error: " ++ cause) := by
  induction pre generalizing i with
  | nil =>
    cases hn : fromParts f nested (.mk "" [] v) with
    | mk ne res =>
      have hres : res = some cause := by rw [hn] at hfail; exact hfail
      subst hres
      simpa using decodeArgs_cons_arr_nested_err f v nested ys i ne cause hn
  | cons p pre ih =>
    have hrest : ∀ x ∈ pre, argOk f v x := fun x hx => hpre x (by simp [hx])
    have hlen : i + 1 + pre.length = i + (p :: pre).length := by
      simp [List.length_cons]
      omega
    cases p with
    | arr n1 =>
      have hp0 : argOk f v (.arr n1) := hpre (.arr n1) (by simp)
      have hp : (fromParts f n1 (.mk "" [] v)).2 = none := hp0
      cases hn1 : fromParts f n1 (.mk "" [] v) with
      | mk ne1 res1 =>
        have hres1 : res1 = none := by rw [hn1] at hp; exact hp
        subst hres1
        rw [List.cons_append,
          decodeArgs_cons_arr_tail_err f v n1 _ i ne1 _ hn1 (ih (i + 1) hrest),
          hlen]
    | str s =>
      rw [List.cons_append,
        decodeArgs_cons_notarr_err f v _ (by intro l hl; cases hl) _ i _
          (ih (i + 1) hrest), hlen]
    | num lit =>
      rw [List.cons_append,
        decodeArgs_cons_notarr_err f v _ (by intro l hl; cases hl) _ i _
          (ih (i + 1) hrest), hlen]
    | bool b =>
      rw [List.cons_append,
        decodeArgs_cons_notarr_err f v _ (by intro l hl; cases hl) _ i _
          (ih (i + 1) hrest), hlen]
    | null =>
      rw [List.cons_append,
        decodeArgs_cons_notarr_err f v _ (by intro l hl; cases hl) _ i _
          (ih (i + 1) hrest), hlen]
    | obj fields =>
      rw [List.cons_append,
        decodeArgs_cons_notarr_err f v _ (by intro l hl; cases hl) _ i _
          (ih (i + 1) hrest), hlen]

/-- The custom validator of the repository's `TestCustomValidatorUnmarshal`
test: "void" takes no arguments, every other operator needs at least one. -/
def testValidator (operator : String) (arguments : List (Arg Unit)) :
    Option String :=
  if operator = "void" then
    if arguments.length > 0 then some "expected no arguments for void" else none
  else
    if arguments.length = 0 then some "expected some arguments" else none

/-- C7: a failing recursive decode of the array argument at index `i` makes
the enclosing decode fail with "arg {i} error: {cause}", later siblings are
never examined (the result is the same for every continuation `ys`), and the
wrapping chains through the levels: with the test validator requiring
arguments for non-"void" operators, `["or", ["or", ["void"], ["oops"]]]`
fails with exactly `arg 0 error: arg 1 error: expected some arguments`. -/
theorem C7_nested_error_wrapping :
    (∀ (V : Type) (f : V → String → List (Arg V) → Option String)
       (op : String) (pre nested ys : List Json) (e : Expression V)
       (cause : String),
       (∀ x ∈ pre, argOk f e.Validator x) →
       (fromParts f nested (.mk "" [] e.Validator)).2 = some cause →
       fromParts f (.str op :: (pre ++ .arr nested :: ys)) e =
         (e, some ("arg " ++ toString pre.length ++ " error: " ++ cause))) ∧
    (fromParts (fun (_ : Unit) => testValidator)
       [.str "or", .arr [.str "or", .arr [.str "void"], .arr [.str "oops"]]]
       (.mk "" [] (some ()))).2 =
      some "arg 0 error: arg 1 error: expected some arguments" := by
  constructor
  · intro V f op pre nested ys e cause hpre hfail
    rw [fromParts_cons_str_err f op _ e _
      (decodeArgs_fail_at f e.Validator pre nested ys 0 cause hpre hfail)]
    rw [Nat.zero_add]
  · have hvoid : fromParts (fun (_ : Unit) => testValidator)
        [.str "void"] (.mk "" [] (some ())) =
        (.mk "void" [] (some ()), none) := by
      rw [fromParts_cons_str_ok _ "void" [] _ [] (decodeArgs_nil _ _ _)]
      simp +decide [Expression.Validate, Expression.Validator, Expression.Operator,
        Expression.Arguments, testValidator]
    have hoops : fromParts (fun (_ : Unit) => testValidator)
        [.str "oops"] (.mk "" [] (some ())) =
        (.mk "oops" [] (some ()), some "expected some arguments") := by
      rw [fromParts_cons_str_ok _ "oops" [] _ [] (decodeArgs_nil _ _ _)]
      simp +decide [Expression.Validate, Expression.Validator, Expression.Operator,
        Expression.Arguments, testValidator]
    have hmid : fromParts (fun (_ : Unit) => testValidator)
        [.str "or", .arr [.str "void"], .arr [.str "oops"]]
        (.mk "" [] (some ())) =
        (.mk "" [] (some ()),
          some ("arg " ++ toString 1 ++ " error: " ++ "expected some arguments")) := by
      apply fromParts_cons_str_err
      exact decodeArgs_cons_arr_tail_err _ _ _ _ 0 _ _ hvoid
        (decodeArgs_cons_arr_nested_err _ _ _ [] 1 _ _ hoops)
    have hmid' : fromParts (fun (_ : Unit) => testValidator)
        [.str "or", .arr [.str "void"], .arr [.str "oops"]]
        (.mk "" [] (some ())) =
        (.mk "" [] (some ()), some "arg 1 error: expected some arguments") := by
      rw [hmid]
      exact congrArg (fun m => ((.mk "" [] (some ()) : Expression Unit), some m))
        (by decide)
    have houter := fromParts_cons_str_err (fun (_ : Unit) => testValidator)
      "or" _ (.mk "" [] (some ())) _
      (decodeArgs_cons_arr_nested_err _ _ _ [] 0 _ _ hmid')
    rw [houter]
    exact congrArg some (by decide)

/-- Witness for C7: decoding `["or", ["void"], ["oops"], "x"]` under the
test validator fails at argument index 1 with the wrapped message; the later
sibling `"x"` changes nothing. -/
theorem C7_nested_error_wrapping_witness :
    fromParts (fun (_ : Unit) => testValidator)
      [.str "or", .arr [.str "void"], .arr [.str "oops"], .str "x"]
      (.mk "" [] (some ())) =
      (.mk "" [] (some ()), some "arg 1 error: expected some arguments") := by
  have hvoid : fromParts (fun (_ : Unit) => testValidator)
      [.str "void"] (.mk "" [] (some ())) = (.mk "void" [] (some ()), none) := by
    rw [fromParts_cons_str_ok _ "void" [] _ [] (decodeArgs_nil _ _ _)]
    simp +decide [Expression.Validate, Expression.Validator, Expression.Operator,
      Expression.Arguments, testValidator]
  have hoops : fromParts (fun (_ : Unit) => testValidator)
      [.str "oops"] (.mk "" [] (some ())) =
      (.mk "oops" [] (some ()), some "expected some arguments") := by
    rw [fromParts_cons_str_ok _ "oops" [] _ [] (decodeArgs_nil _ _ _)]
    simp +decide [Expression.Validate, Expression.Validator, Expression.Operator,
      Expression.Arguments, testValidator]
  have h := C7_nested_error_wrapping.1 Unit (fun _ => testValidator) "or"
    [.arr [.str "void"]] [.str "oops"] [.str "x"] (.mk "" [] (some ()))
    "expected some arguments"
    (by
      intro x hx
      rw [List.mem_singleton] at hx
      subst hx
      show (fromParts (fun (_ : Unit) => testValidator) [.str "void"]
        (.mk "" [] (some ()))).2 = none
      rw [hvoid])
    (by
      show (fromParts (fun (_ : Unit) => testValidator) [.str "oops"]
        (.mk "" [] (some ()))).2 = some "expected some arguments"
      rw [hoops])
  simp only [List.cons_append, List.nil_append] at h
  rw [h]
  exact congrArg (fun m => ((.mk "" [] (some ()) : Expression Unit), some m))
    (by decide)

/-! ### C1 — round trip -/

/-- The `,`-prefixed serializations of a list of values: exactly what the
encoder's argument loop emits for these values as terminal arguments. -/
def commaTail : List Json → String
  | [] => ""
  | j :: rest => "," ++ serialize j ++ commaTail rest

/-- The body of a serialized non-empty array splits into its head and the
`,`-prefixed tail. -/
theorem serializeItems_eq (j : Json) (rest : List Json) :
    serializeItems (j :: rest) = serialize j ++ commaTail rest := by
  induction rest generalizing j with
  | nil =>
    rw [serializeItems, commaTail, String.append_empty]
  | cons j' rest ih =>
    rw [serializeItems, commaTail, ih j']
    simp [String.append_assoc]

/-- A node with a non-empty operator and an absent or accepting validator
validates. -/
theorem Validate_none_of (op : String) (args : List (Arg V)) (val : Option V)
    (hop : op ≠ "") (hacc : Accepting f val) :
    Expression.Validate f (.mk op args val) = none := by
  rw [Expression.Validate]
  simp only [Expression.Operator, Expression.Validator, Expression.Arguments]
  rw [if_neg (fun hl => hop ((string_length_eq_zero_iff _).mp hl))]
  cases val with
  | none => rfl
  | some v => exact hacc v rfl op args

/-- Direction (b) of the round trip: whatever decoded successfully
re-encodes to exactly the serialization of the original parsed value.
Strong induction on the size of the input parts. -/
theorem marshal_of_decode :
    ∀ (n : Nat) (V : Type) (f : V → String → List (Arg V) → Option String),
      (∀ (parts : List Json) (e e' : Expression V), sizeOf parts ≤ n →
        fromParts f parts e = (e', none) →
        MarshalJSON f e' = .ok (serialize (.arr parts))) ∧
      (∀ (v : Option V) (rest : List Json) (i : Nat) (args : List (Arg V))
         (k : Nat), sizeOf rest ≤ n →
        decodeArgs f v rest i = .ok args →
        marshalArgs f args k = .ok (commaTail rest)) := by
  intro n
  induction n using Nat.strong_induction_on with
  | _ n ih =>
    intro V f
    constructor
    · intro parts e e' hsz hdec
      obtain ⟨op, rest, args, hp, hargs, he', hval⟩ :=
        fromParts_ok_inv f parts e e' hdec
      subst hp
      subst he'
      have hm : marshalArgs f args 0 = .ok (commaTail rest) :=
        (ih (sizeOf rest) (by simp at hsz ⊢; omega) V f).2
          e.Validator rest 0 args 0 le_rfl hargs
      have := MarshalJSON_ok_of f (.mk op args e.Validator) (commaTail rest)
        hval hm
      rw [this]
      rw [serialize, serializeItems_eq, serialize]
      simp only [Expression.Operator]
      simp [String.append_assoc]
    · intro v rest i args k hsz hdec
      cases rest with
      | nil =>
        rw [decodeArgs_nil] at hdec
        injection hdec with h
        subst h
        rw [marshalArgs_nil, commaTail]
      | cons p rest =>
        cases p with
        | arr nested =>
          obtain ⟨ne, tail, hn, ht, rfl⟩ :=
            decodeArgs_cons_arr_ok_inv f v nested rest i args hdec
          have hnb : MarshalJSON f ne = .ok (serialize (.arr nested)) :=
            (ih (sizeOf nested) (by simp at hsz ⊢; omega) V f).1
              nested (.mk "" [] v) ne le_rfl hn
          have htb : marshalArgs f tail (k + 1) = .ok (commaTail rest) :=
            (ih (sizeOf rest) (by simp at hsz ⊢; omega) V f).2
              v rest (i + 1) tail (k + 1) le_rfl ht
          rw [marshalArgs_cons_expr_ok f ne tail k _ _ hnb htb, commaTail]
        | str s =>
          obtain ⟨tail, ht, rfl⟩ := decodeArgs_cons_notarr_ok_inv f v _
            (by intro l hl; cases hl) rest i args hdec
          have htb : marshalArgs f tail (k + 1) = .ok (commaTail rest) :=
            (ih (sizeOf rest) (by simp at hsz ⊢; omega) V f).2
              v rest (i + 1) tail (k + 1) le_rfl ht
          rw [marshalArgs_cons_json_ok f _ tail k _ htb, commaTail]
        | num lit =>
          obtain ⟨tail, ht, rfl⟩ := decodeArgs_cons_notarr_ok_inv f v _
            (by intro l hl; cases hl) rest i args hdec
          have htb : marshalArgs f tail (k + 1) = .ok (commaTail rest) :=
            (ih (sizeOf rest) (by simp at hsz ⊢; omega) V f).2
              v rest (i + 1) tail (k + 1) le_rfl ht
          rw [marshalArgs_cons_json_ok f _ tail k _ htb, commaTail]
        | bool b =>
          obtain ⟨tail, ht, rfl⟩ := decodeArgs_cons_notarr_ok_inv f v _
            (by intro l hl; cases hl) rest i args hdec
          have htb : marshalArgs f tail (k + 1) = .ok (commaTail rest) :=
            (ih (sizeOf rest) (by simp at hsz ⊢; omega) V f).2
              v rest (i + 1) tail (k + 1) le_rfl ht
          rw [marshalArgs_cons_json_ok f _ tail k _ htb, commaTail]
        | null =>
          obtain ⟨tail, ht, rfl⟩ := decodeArgs_cons_notarr_ok_inv f v _
            (by intro l hl; cases hl) rest i args hdec
          have htb : marshalArgs f tail (k + 1) = .ok (commaTail rest) :=
            (ih (sizeOf rest) (by simp at hsz ⊢; omega) V f).2
              v rest (i + 1) tail (k + 1) le_rfl ht
          rw [marshalArgs_cons_json_ok f _ tail k _ htb, commaTail]
        | obj fields =>
          obtain ⟨tail, ht, rfl⟩ := decodeArgs_cons_notarr_ok_inv f v _
            (by intro l hl; cases hl) rest i args hdec
          have htb : marshalArgs f tail (k + 1) = .ok (commaTail rest) :=
            (ih (sizeOf rest) (by simp at hsz ⊢; omega) V f).2
              v rest (i + 1) tail (k + 1) le_rfl ht
          rw [marshalArgs_cons_json_ok f _ tail k _ htb, commaTail]

/-- Encoding a round-trippable tree succeeds and produces the serialization
of its JSON value form.  Strong induction on the size of the tree. -/
theorem marshal_of_good :
    ∀ (n : Nat) (V : Type) (f : V → String → List (Arg V) → Option String),
      (∀ T : Expression V, sizeOf T ≤ n → GoodExpr f T →
        MarshalJSON f T = .ok (serialize (toJson T))) ∧
      (∀ (args : List (Arg V)) (i : Nat), sizeOf args ≤ n → GoodArgs f args →
        marshalArgs f args i = .ok (commaTail (argsToJson args))) := by
  intro n
  induction n using Nat.strong_induction_on with
  | _ n ih =>
    intro V f
    constructor
    · intro T hsz hT
      cases hT with
      | mk op args val hop hacc hargs =>
        have hm : marshalArgs f args 0 = .ok (commaTail (argsToJson args)) :=
          (ih (sizeOf args) (by simp at hsz ⊢; omega) V f).2 args 0 le_rfl hargs
        rw [MarshalJSON_ok_of f _ _ (Validate_none_of f op args val hop hacc) hm]
        rw [toJson, serialize, serializeItems_eq, serialize]
        simp only [Expression.Operator]
        simp [String.append_assoc]
    · intro args i hsz hargs
      cases hargs with
      | nil =>
        rw [marshalArgs_nil, argsToJson, commaTail]
      | json j rest hj hrest =>
        have htb : marshalArgs f rest (i + 1) = .ok (commaTail (argsToJson rest)) :=
          (ih (sizeOf rest) (by simp at hsz ⊢; omega) V f).2 rest (i + 1)
            le_rfl hrest
        rw [marshalArgs_cons_json_ok f j rest i _ htb, argsToJson, commaTail]
      | expr T1 rest hT1 hrest =>
        have hnb : MarshalJSON f T1 = .ok (serialize (toJson T1)) :=
          (ih (sizeOf T1) (by simp at hsz ⊢; omega) V f).1 T1 le_rfl hT1
        have htb : marshalArgs f rest (i + 1) = .ok (commaTail (argsToJson rest)) :=
          (ih (sizeOf rest) (by simp at hsz ⊢; omega) V f).2 rest (i + 1)
            le_rfl hrest
        rw [marshalArgs_cons_expr_ok f T1 rest i _ _ hnb htb, argsToJson, commaTail]

/-- Decoding the JSON value form of a round-trippable tree into a fresh node
with an absent-or-accepting validator succeeds and reproduces the tree's
shape.  Strong induction on the size of the tree. -/
theorem decode_of_good :
    ∀ (n : Nat) (V : Type) (f : V → String → List (Arg V) → Option String),
      (∀ (T e₀ : Expression V), sizeOf T ≤ n → GoodExpr f T →
        Accepting f e₀.Validator →
        ∃ T', fromParts f (.str T.Operator :: argsToJson T.Arguments) e₀ =
            (T', none) ∧ skeleton T' = skeleton T) ∧
      (∀ (argsT : List (Arg V)) (v : Option V) (i : Nat),
        sizeOf argsT ≤ n → GoodArgs f argsT → Accepting f v →
        ∃ args', decodeArgs f v (argsToJson argsT) i = .ok args' ∧
          skeletonArgs args' = skeletonArgs argsT) := by
  intro n
  induction n using Nat.strong_induction_on with
  | _ n ih =>
    intro V f
    constructor
    · intro T e₀ hsz hT hacc
      cases hT with
      | mk op args val hop haccT hargs =>
        obtain ⟨args', hdec, hsk⟩ :=
          (ih (sizeOf args) (by simp at hsz ⊢; omega) V f).2 args
            e₀.Validator 0 le_rfl hargs hacc
        refine ⟨.mk op args' e₀.Validator, ?_, ?_⟩
        · simp only [Expression.Operator, Expression.Arguments]
          rw [fromParts_cons_str_ok f op _ e₀ args' hdec,
            Validate_none_of f op args' e₀.Validator hop hacc]
        · rw [skeleton, skeleton, hsk]
    · intro argsT v i hsz hargs hacc
      cases hargs with
      | nil =>
        exact ⟨[], by rw [argsToJson, decodeArgs_nil], rfl⟩
      | json j rest hj hrest =>
        obtain ⟨tail', ht, hsk⟩ :=
          (ih (sizeOf rest) (by simp at hsz ⊢; omega) V f).2 rest v (i + 1)
            le_rfl hrest hacc
        refine ⟨.json j :: tail', ?_, ?_⟩
        · rw [argsToJson, decodeArgs_cons_notarr_ok f v j hj _ i tail' ht]
        · rw [skeletonArgs, skeletonArgs, hsk]
      | expr T1 rest hT1 hrest =>
        obtain ⟨T1', hT1dec, hT1sk⟩ :=
          (ih (sizeOf T1) (by simp at hsz ⊢; omega) V f).1 T1 (.mk "" [] v)
            le_rfl hT1 hacc
        obtain ⟨tail', ht, hsk⟩ :=
          (ih (sizeOf rest) (by simp at hsz ⊢; omega) V f).2 rest v (i + 1)
            le_rfl hrest hacc
        refine ⟨.expr T1' :: tail', ?_, ?_⟩
        · rw [argsToJson]
          cases T1 with
          | mk op1 args1 val1 =>
            rw [toJson]
            exact decodeArgs_cons_arr_ok f v _ _ i T1' tail'
              (by
                simp only [Expression.Operator, Expression.Arguments] at hT1dec
                exact hT1dec) ht
        · rw [skeletonArgs, skeletonArgs, hT1sk, hsk]

/-- C1: round trip.  (1) Every tree whose nodes have non-empty operators,
absent or always-accepting validators, and arguments that are non-array JSON
terminals or such nested trees, encodes successfully to the bytes of a JSON
array `parts`, and decoding those parts yields a tree with the same
operator, argument sequence and nested structure (equal skeletons).
(2) Whatever bytes decode successfully re-encode to exactly the
serialization of the value those bytes parsed to — a JSON value equal to
the original bytes. -/
theorem C1_roundtrip :
    (∀ (V : Type) (f : V → String → List (Arg V) → Option String)
       (T : Expression V), GoodExpr f T →
      ∃ parts : List Json,
        MarshalJSON f T = .ok (serialize (.arr parts)) ∧
        ∃ T', fromParts f parts (.mk "" [] T.Validator) = (T', none) ∧
          skeleton T' = skeleton T) ∧
    (∀ (V : Type) (f : V → String → List (Arg V) → Option String)
       (parts : List Json) (e e' : Expression V),
      fromParts f parts e = (e', none) →
      MarshalJSON f e' = .ok (serialize (.arr parts))) := by
  constructor
  · intro V f T hT
    cases hT with
    | mk op args val hop hacc hargs =>
      refine ⟨.str op :: argsToJson args, ?_, ?_⟩
      · have hm := (marshal_of_good (sizeOf (Expression.mk op args val)) V f).1
          _ le_rfl (GoodExpr.mk op args val hop hacc hargs)
        rw [hm, toJson]
      · have hacc' : Accepting f ((Expression.mk "" [] val : Expression V)).Validator :=
          hacc
        have h := (decode_of_good (sizeOf (Expression.mk op args val)) V f).1
          (.mk op args val) (.mk "" [] val) le_rfl
          (GoodExpr.mk op args val hop hacc hargs) hacc'
        simp only [Expression.Operator, Expression.Arguments,
          Expression.Validator] at h ⊢
        exact h
  · intro V f parts e e' h
    exact (marshal_of_decode (sizeOf parts) V f).1 parts e e' le_rfl h

/-- Witness for C1: the decoded `["void"]` re-encodes to the serialization
of `["void"]`. -/
theorem C1_roundtrip_witness :
    MarshalJSON (fun (_ : Unit) _ _ => none) (.mk "void" [] none) =
      .ok (serialize (.arr [.str "void"])) := by
  apply C1_roundtrip.2 Unit (fun _ _ _ => none) [.str "void"] (.mk "" [] none)
  rw [fromParts_cons_str_ok _ "void" [] _ [] (decodeArgs_nil _ _ _)]
  simp +decide [Expression.Validate, Expression.Validator, Expression.Operator,
    Expression.Arguments]

/-! ### Instrumented decoder and encoder

`fromPartsT`/`decodeArgsT` and `MarshalJSONT`/`marshalArgsT` perform the
same computation as their plain counterparts (the erasure conjuncts of C2
and C3 prove this) and additionally return the sequence of nodes on which
`Expression.Validate` is invoked, in invocation order.  They exist solely to
make the traversal/validation order of the source observable in the
embedding. -/

mutual

/-- Instrumented `fromParts`: also returns the `Validate` invocation
sequence.  The node's own `Validate` event is appended after all events of
its nested arguments. -/
def fromPartsT (f : V → String → List (Arg V) → Option String)
    (parts : List Json) (expression : Expression V) :
    (Expression V × Option String) × List (Expression V) :=
  match parts with
  | [] => ((expression, some "expression must have an operator"), [])
  | opInterface :: rest =>
    match getOperator (opInterface :: rest) with
    | .error opErr => ((expression, some opErr), [])
    | .ok operator =>
      match decodeArgsT f expression.Validator rest 0 with
      | (.error nestedErr, tr) => ((expression, some nestedErr), tr)
      | (.ok arguments, tr) =>
        let expression' : Expression V := .mk operator arguments expression.Validator
        ((expression', expression'.Validate f), tr ++ [expression'])
termination_by sizeOf parts
decreasing_by
  simp

/-- Instrumented argument loop of `fromParts`. -/
def decodeArgsT (f : V → String → List (Arg V) → Option String)
    (v : Option V) (args : List Json) (i : Nat) :
    Except String (List (Arg V)) × List (Expression V) :=
  match args with
  | [] => (.ok [], [])
  | arg :: rest =>
    match arg with
    | .arr nestedParts =>
      match fromPartsT f nestedParts (.mk "" [] v) with
      | ((nested', none), tr) =>
        (match decodeArgsT f v rest (i + 1) with
         | (.error e, tr') => (.error e, tr ++ tr')
         | (.ok tail, tr') => (.ok (.expr nested' :: tail), tr ++ tr'))
      | ((_, some nestedErr), tr) =>
        (.error ("arg " ++ toString i ++ " error: " ++ nestedErr), tr)
    | _ =>
      match decodeArgsT f v rest (i + 1) with
      | (.error e, tr) => (.error e, tr)
      | (.ok tail, tr) => (.ok (.json arg :: tail), tr)
termination_by sizeOf args
decreasing_by
  all_goals simp
  all_goals try omega

end

mutual

/-- Instrumented `MarshalJSON`: also returns the `Validate` invocation
sequence.  The node's own `Validate` event comes first, before any argument
is visited. -/
def MarshalJSONT (f : V → String → List (Arg V) → Option String)
    (expression : Expression V) :
    Except String String × List (Expression V) :=
  match expression.Validate f with
  | some validationErr => (.error validationErr, [expression])
  | none =>
    match marshalArgsT f expression.Arguments 0 with
    | (.error argErr, tr) => (.error argErr, expression :: tr)
    | (.ok argBytes, tr) =>
      (.ok ("[" ++ quoteString expression.Operator ++ argBytes ++ "]"),
        expression :: tr)
termination_by sizeOf expression
decreasing_by
  cases expression; simp [Expression.Arguments]; try omega

/-- Instrumented argument loop of `MarshalJSON`. -/
def marshalArgsT (f : V → String → List (Arg V) → Option String)
    (arguments : List (Arg V)) (i : Nat) :
    Except String String × List (Expression V) :=
  match arguments with
  | [] => (.ok "", [])
  | .json j :: rest =>
    match marshalArgsT f rest (i + 1) with
    | (.error e, tr) => (.error e, tr)
    | (.ok tailBytes, tr) => (.ok ("," ++ serialize j ++ tailBytes), tr)
  | .expr nested :: rest =>
    match MarshalJSONT f nested with
    | (.error nestedErr, tr) =>
      (.error ("failed to marshal argument " ++ toString i ++ ": " ++
        "json: error calling MarshalJSON for type *jiffy.Expression: " ++
        nestedErr), tr)
    | (.ok nestedBytes, tr) =>
      match marshalArgsT f rest (i + 1) with
      | (.error e, tr') => (.error e, tr ++ tr')
      | (.ok tailBytes, tr') => (.ok ("," ++ nestedBytes ++ tailBytes), tr ++ tr')
termination_by sizeOf arguments
decreasing_by
  all_goals simp
  all_goals try omega

end

/-! Unfolding lemmas for the instrumented functions. -/

theorem fromPartsT_nil (e : Expression V) :
    fromPartsT f [] e = ((e, some "expression must have an operator"), []) := by
  rw [fromPartsT]

theorem fromPartsT_cons_str (op : String) (rest : List Json) (e : Expression V) :
    fromPartsT f (.str op :: rest) e =
      match decodeArgsT f e.Validator rest 0 with
      | (.error nestedErr, tr) => ((e, some nestedErr), tr)
      | (.ok arguments, tr) =>
        (((.mk op arguments e.Validator : Expression V),
          Expression.Validate f (.mk op arguments e.Validator)),
          tr ++ [.mk op arguments e.Validator]) := by
  rw [fromPartsT]
  simp only [getOperator]

theorem fromPartsT_cons_notstr (p : Json) (h : ∀ s, p ≠ .str s)
    (rest : List Json) (e : Expression V) :
    fromPartsT f (p :: rest) e =
      ((e, some ("expected a string operator, got " ++ goRender p)), []) := by
  rw [fromPartsT]
  cases p with
  | str s => exact absurd rfl (h s)
  | num lit => simp only [getOperator]
  | bool b => simp only [getOperator]
  | null => simp only [getOperator]
  | arr elems => simp only [getOperator]
  | obj fields => simp only [getOperator]

theorem decodeArgsT_nil (v : Option V) (i : Nat) :
    decodeArgsT f v [] i = (.ok [], []) := by
  rw [decodeArgsT]

theorem decodeArgsT_cons_arr (v : Option V) (nested rest : List Json) (i : Nat) :
    decodeArgsT f v (.arr nested :: rest) i =
      match fromPartsT f nested (.mk "" [] v) with
      | ((nested', none), tr) =>
        (match decodeArgsT f v rest (i + 1) with
         | (.error e, tr') => (.error e, tr ++ tr')
         | (.ok tail, tr') => (.ok (.expr nested' :: tail), tr ++ tr'))
      | ((_, some nestedErr), tr) =>
        (.error ("arg " ++ toString i ++ " error: " ++ nestedErr), tr) := by
  rw [decodeArgsT]

theorem decodeArgsT_cons_notarr (v : Option V) (p : Json)
    (hp : ∀ l, p ≠ .arr l) (rest : List Json) (i : Nat) :
    decodeArgsT f v (p :: rest) i =
      match decodeArgsT f v rest (i + 1) with
      | (.error e, tr) => (.error e, tr)
      | (.ok tail, tr) => (.ok (.json p :: tail), tr) := by
  rw [decodeArgsT]
  cases p with
  | arr elems => exact absurd rfl (hp elems)
  | str s => simp
  | num lit => simp
  | bool b => simp
  | null => simp
  | obj fields => simp

theorem MarshalJSONT_eq (e : Expression V) :
    MarshalJSONT f e =
      match e.Validate f with
      | some validationErr => (.error validationErr, [e])
      | none =>
        match marshalArgsT f e.Arguments 0 with
        | (.error argErr, tr) => (.error argErr, e :: tr)
        | (.ok argBytes, tr) =>
          (.ok ("[" ++ quoteString e.Operator ++ argBytes ++ "]"), e :: tr) := by
  rw [MarshalJSONT]

theorem marshalArgsT_nil (i : Nat) : marshalArgsT f ([] : List (Arg V)) i = (.ok "", []) := by
  rw [marshalArgsT]

theorem marshalArgsT_cons_json (j : Json) (rest : List (Arg V)) (i : Nat) :
    marshalArgsT f (.json j :: rest) i =
      match marshalArgsT f rest (i + 1) with
      | (.error e, tr) => (.error e, tr)
      | (.ok tailBytes, tr) => (.ok ("," ++ serialize j ++ tailBytes), tr) := by
  rw [marshalArgsT]

theorem marshalArgsT_cons_expr (nested : Expression V) (rest : List (Arg V))
    (i : Nat) :
    marshalArgsT f (.expr nested :: rest) i =
      match MarshalJSONT f nested with
      | (.error nestedErr, tr) =>
        (.error ("failed to marshal argument " ++ toString i ++ ": " ++
          "json: error calling MarshalJSON for type *jiffy.Expression: " ++
          nestedErr), tr)
      | (.ok nestedBytes, tr) =>
        match marshalArgsT f rest (i + 1) with
        | (.error e, tr') => (.error e, tr ++ tr')
        | (.ok tailBytes, tr') => (.ok ("," ++ nestedBytes ++ tailBytes), tr ++ tr') := by
  rw [marshalArgsT]

/-- The instrumented decoder computes exactly what `fromParts`/`decodeArgs`
compute (first components agree). -/
theorem decodeT_erase :
    ∀ (n : Nat) (V : Type) (f : V → String → List (Arg V) → Option String),
      (∀ (parts : List Json) (e : Expression V), sizeOf parts ≤ n →
        (fromPartsT f parts e).1 = fromParts f parts e) ∧
      (∀ (v : Option V) (args : List Json) (i : Nat), sizeOf args ≤ n →
        (decodeArgsT f v args i).1 = decodeArgs f v args i) := by
  intro n
  induction n using Nat.strong_induction_on with
  | _ n ih =>
    intro V f
    constructor
    · intro parts e hsz
      cases parts with
      | nil => rw [fromPartsT_nil, fromParts_nil]
      | cons p rest =>
        cases p with
        | str op =>
          rw [fromPartsT_cons_str, fromParts_cons_str]
          cases hT : decodeArgsT f e.Validator rest 0 with
          | mk res tr =>
            have hD : decodeArgs f e.Validator rest 0 = res := by
              rw [← (ih (sizeOf rest) (by simp at hsz ⊢; omega) V f).2
                e.Validator rest 0 le_rfl, hT]
            rw [hD]
            cases res with
            | error m => rfl
            | ok args => rfl
        | num lit =>
          rw [fromPartsT_cons_notstr f _ (by intro s hs; cases hs),
            fromParts_cons_notstr f _ (by intro s hs; cases hs)]
        | bool b =>
          rw [fromPartsT_cons_notstr f _ (by intro s hs; cases hs),
            fromParts_cons_notstr f _ (by intro s hs; cases hs)]
        | null =>
          rw [fromPartsT_cons_notstr f _ (by intro s hs; cases hs),
            fromParts_cons_notstr f _ (by intro s hs; cases hs)]
        | arr elems =>
          rw [fromPartsT_cons_notstr f _ (by intro s hs; cases hs),
            fromParts_cons_notstr f _ (by intro s hs; cases hs)]
        | obj fields =>
          rw [fromPartsT_cons_notstr f _ (by intro s hs; cases hs),
            fromParts_cons_notstr f _ (by intro s hs; cases hs)]
    · intro v args i hsz
      cases args with
      | nil => rw [decodeArgsT_nil, decodeArgs_nil]
      | cons p rest =>
        have htail : (decodeArgsT f v rest (i + 1)).1 =
            decodeArgs f v rest (i + 1) :=
          (ih (sizeOf rest) (by simp at hsz ⊢; omega) V f).2 v rest (i + 1) le_rfl
        cases p with
        | arr nested =>
          rw [decodeArgsT_cons_arr, decodeArgs_cons_arr]
          cases hT : fromPartsT f nested (.mk "" [] v) with
          | mk p1 tr =>
            cases p1 with
            | mk ne res =>
              have hF : fromParts f nested (.mk "" [] v) = (ne, res) := by
                rw [← (ih (sizeOf nested) (by simp at hsz ⊢; omega) V f).1
                  nested (.mk "" [] v) le_rfl, hT]
              rw [hF]
              cases res with
              | none =>
                cases hT2 : decodeArgsT f v rest (i + 1) with
                | mk res2 tr2 =>
                  have hD2 : decodeArgs f v rest (i + 1) = res2 := by
                    rw [← htail, hT2]
                  rw [hD2]
                  cases res2 with
                  | error m => rfl
                  | ok tail => rfl
              | some m => rfl
        | str s =>
          rw [decodeArgsT_cons_notarr f v _ (by intro l hl; cases hl),
            decodeArgs_cons_notarr f v _ (by intro l hl; cases hl)]
          cases hT2 : decodeArgsT f v rest (i + 1) with
          | mk res2 tr2 =>
            have hD2 : decodeArgs f v rest (i + 1) = res2 := by
              rw [← htail, hT2]
            rw [hD2]
            cases res2 with
            | error m => rfl
            | ok tail => rfl
        | num lit =>
          rw [decodeArgsT_cons_notarr f v _ (by intro l hl; cases hl),
            decodeArgs_cons_notarr f v _ (by intro l hl; cases hl)]
          cases hT2 : decodeArgsT f v rest (i + 1) with
          | mk res2 tr2 =>
            have hD2 : decodeArgs f v rest (i + 1) = res2 := by
              rw [← htail, hT2]
            rw [hD2]
            cases res2 with
            | error m => rfl
            | ok tail => rfl
        | bool b =>
          rw [decodeArgsT_cons_notarr f v _ (by intro l hl; cases hl),
            decodeArgs_cons_notarr f v _ (by intro l hl; cases hl)]
          cases hT2 : decodeArgsT f v rest (i + 1) with
          | mk res2 tr2 =>
            have hD2 : decodeArgs f v rest (i + 1) = res2 := by
              rw [← htail, hT2]
            rw [hD2]
            cases res2 with
            | error m => rfl
            | ok tail => rfl
        | null =>
          rw [decodeArgsT_cons_notarr f v _ (by intro l hl; cases hl),
            decodeArgs_cons_notarr f v _ (by intro l hl; cases hl)]
          cases hT2 : decodeArgsT f v rest (i + 1) with
          | mk res2 tr2 =>
            have hD2 : decodeArgs f v rest (i + 1) = res2 := by
              rw [← htail, hT2]
            rw [hD2]
            cases res2 with
            | error m => rfl
            | ok tail => rfl
        | obj fields =>
          rw [decodeArgsT_cons_notarr f v _ (by intro l hl; cases hl),
            decodeArgs_cons_notarr f v _ (by intro l hl; cases hl)]
          cases hT2 : decodeArgsT f v rest (i + 1) with
          | mk res2 tr2 =>
            have hD2 : decodeArgs f v rest (i + 1) = res2 := by
              rw [← htail, hT2]
            rw [hD2]
            cases res2 with
            | error m => rfl
            | ok tail => rfl

/-- On success, the decoder's `Validate` invocation sequence is exactly the
post-order node sequence of the decoded result: every descendant's event
precedes its ancestor's, siblings left to right. -/
theorem decodeT_trace_postorder :
    ∀ (n : Nat) (V : Type) (f : V → String → List (Arg V) → Option String),
      (∀ (parts : List Json) (e e' : Expression V) (tr : List (Expression V)),
        sizeOf parts ≤ n →
        fromPartsT f parts e = ((e', none), tr) → tr = postorderNodes e') ∧
      (∀ (v : Option V) (args : List Json) (i : Nat) (out : List (Arg V))
         (tr : List (Expression V)), sizeOf args ≤ n →
        decodeArgsT f v args i = (.ok out, tr) → tr = postorderArgs out) := by
  intro n
  induction n using Nat.strong_induction_on with
  | _ n ih =>
    intro V f
    constructor
    · intro parts e e' tr hsz hT
      cases parts with
      | nil =>
        rw [fromPartsT_nil] at hT
        have h' : ((e, some "expression must have an operator"),
            ([] : List (Expression V))) = ((e', none), tr) := hT
        injection h' with h1 h2
        injection h1 with h3 h4
        cases h4
      | cons p rest =>
        cases p with
        | str op =>
          rw [fromPartsT_cons_str] at hT
          cases hA : decodeArgsT f e.Validator rest 0 with
          | mk res trA =>
            rw [hA] at hT
            cases res with
            | error m =>
              have h' : ((e, some m), trA) = ((e', none), tr) := hT
              injection h' with h1 h2
              injection h1 with h3 h4
              cases h4
            | ok args =>
              have h' : (((Expression.mk op args e.Validator : Expression V),
                  Expression.Validate f (.mk op args e.Validator)),
                  trA ++ [Expression.mk op args e.Validator]) = ((e', none), tr) := hT
              injection h' with h1 h2
              injection h1 with h3 h4
              subst h3
              subst h2
              rw [(ih (sizeOf rest) (by simp at hsz ⊢; omega) V f).2
                e.Validator rest 0 args trA le_rfl hA]
              rw [postorderNodes]
        | num lit =>
          rw [fromPartsT_cons_notstr f _ (by intro s hs; cases hs)] at hT
          have h' : ((e, some ("expected a string operator, got " ++
              goRender (.num lit))), ([] : List (Expression V))) = ((e', none), tr) := hT
          injection h' with h1 h2
          injection h1 with h3 h4
          cases h4
        | bool b =>
          rw [fromPartsT_cons_notstr f _ (by intro s hs; cases hs)] at hT
          have h' : ((e, some ("expected a string operator, got " ++
              goRender (.bool b))), ([] : List (Expression V))) = ((e', none), tr) := hT
          injection h' with h1 h2
          injection h1 with h3 h4
          cases h4
        | null =>
          rw [fromPartsT_cons_notstr f _ (by intro s hs; cases hs)] at hT
          have h' : ((e, some ("expected a string operator, got " ++
              goRender .null)), ([] : List (Expression V))) = ((e', none), tr) := hT
          injection h' with h1 h2
          injection h1 with h3 h4
          cases h4
        | arr elems =>
          rw [fromPartsT_cons_notstr f _ (by intro s hs; cases hs)] at hT
          have h' : ((e, some ("expected a string operator, got " ++
              goRender (.arr elems))), ([] : List (Expression V))) = ((e', none), tr) := hT
          injection h' with h1 h2
          injection h1 with h3 h4
          cases h4
        | obj fields =>
          rw [fromPartsT_cons_notstr f _ (by intro s hs; cases hs)] at hT
          have h' : ((e, some ("expected a string operator, got " ++
              goRender (.obj fields))), ([] : List (Expression V))) = ((e', none), tr) := hT
          injection h' with h1 h2
          injection h1 with h3 h4
          cases h4
    · intro v args i out tr hsz hT
      cases args with
      | nil =>
        rw [decodeArgsT_nil] at hT
        have h' : ((.ok [] : Except String (List (Arg V))),
            ([] : List (Expression V))) = (.ok out, tr) := hT
        injection h' with h1 h2
        injection h1 with h3
        subst h3
        subst h2
        rw [postorderArgs]
      | cons p rest =>
        cases p with
        | arr nested =>
          rw [decodeArgsT_cons_arr] at hT
          cases hF : fromPartsT f nested (.mk "" [] v) with
          | mk p1 trn =>
            cases p1 with
            | mk ne res =>
              rw [hF] at hT
              cases res with
              | none =>
                cases hA : decodeArgsT f v rest (i + 1) with
                | mk res2 tr2 =>
                  rw [hA] at hT
                  cases res2 with
                  | error m =>
                    have h' : ((.error m : Except String (List (Arg V))),
                        trn ++ tr2) = (.ok out, tr) := hT
                    injection h' with h1 h2
                    cases h1
                  | ok tail =>
                    have h' : ((.ok (.expr ne :: tail) :
                        Except String (List (Arg V))), trn ++ tr2) = (.ok out, tr) := hT
                    injection h' with h1 h2
                    injection h1 with h3
                    subst h3
                    subst h2
                    rw [postorderArgs,
                      (ih (sizeOf nested) (by simp at hsz ⊢; omega) V f).1
                        nested (.mk "" [] v) ne trn le_rfl hF,
                      (ih (sizeOf rest) (by simp at hsz ⊢; omega) V f).2
                        v rest (i + 1) tail tr2 le_rfl hA]
              | some m =>
                have h' : ((.error ("arg " ++ toString i ++ " error: " ++ m) :
                    Except String (List (Arg V))), trn) = (.ok out, tr) := hT
                injection h' with h1 h2
                cases h1
        | str s =>
          rw [decodeArgsT_cons_notarr f v _ (by intro l hl; cases hl)] at hT
          cases hA : decodeArgsT f v rest (i + 1) with
          | mk res2 tr2 =>
            rw [hA] at hT
            cases res2 with
            | error m =>
              have h' : ((.error m : Except String (List (Arg V))), tr2) =
                  (.ok out, tr) := hT
              injection h' with h1 h2
              cases h1
            | ok tail =>
              have h' : ((.ok (.json (.str s) :: tail) :
                  Except String (List (Arg V))), tr2) = (.ok out, tr) := hT
              injection h' with h1 h2
              injection h1 with h3
              subst h3
              subst h2
              rw [postorderArgs]
              exact (ih (sizeOf rest) (by simp at hsz ⊢; omega) V f).2
                v rest (i + 1) tail tr2 le_rfl hA
        | num lit =>
          rw [decodeArgsT_cons_notarr f v _ (by intro l hl; cases hl)] at hT
          cases hA : decodeArgsT f v rest (i + 1) with
          | mk res2 tr2 =>
            rw [hA] at hT
            cases res2 with
            | error m =>
              have h' : ((.error m : Except String (List (Arg V))), tr2) =
                  (.ok out, tr) := hT
              injection h' with h1 h2
              cases h1
            | ok tail =>
              have h' : ((.ok (.json (.num lit) :: tail) :
                  Except String (List (Arg V))), tr2) = (.ok out, tr) := hT
              injection h' with h1 h2
              injection h1 with h3
              subst h3
              subst h2
              rw [postorderArgs]
              exact (ih (sizeOf rest) (by simp at hsz ⊢; omega) V f).2
                v rest (i + 1) tail tr2 le_rfl hA
        | bool b =>
          rw [decodeArgsT_cons_notarr f v _ (by intro l hl; cases hl)] at hT
          cases hA : decodeArgsT f v rest (i + 1) with
          | mk res2 tr2 =>
            rw [hA] at hT
            cases res2 with
            | error m =>
              have h' : ((.error m : Except String (List (Arg V))), tr2) =
                  (.ok out, tr) := hT
              injection h' with h1 h2
              cases h1
            | ok tail =>
              have h' : ((.ok (.json (.bool b) :: tail) :
                  Except String (List (Arg V))), tr2) = (.ok out, tr) := hT
              injection h' with h1 h2
              injection h1 with h3
              subst h3
              subst h2
              rw [postorderArgs]
              exact (ih (sizeOf rest) (by simp at hsz ⊢; omega) V f).2
                v rest (i + 1) tail tr2 le_rfl hA
        | null =>
          rw [decodeArgsT_cons_notarr f v _ (by intro l hl; cases hl)] at hT
          cases hA : decodeArgsT f v rest (i + 1) with
          | mk res2 tr2 =>
            rw [hA] at hT
            cases res2 with
            | error m =>
              have h' : ((.error m : Except String (List (Arg V))), tr2) =
                  (.ok out, tr) := hT
              injection h' with h1 h2
              cases h1
            | ok tail =>
              have h' : ((.ok (.json .null :: tail) :
                  Except String (List (Arg V))), tr2) = (.ok out, tr) := hT
              injection h' with h1 h2
              injection h1 with h3
              subst h3
              subst h2
              rw [postorderArgs]
              exact (ih (sizeOf rest) (by simp at hsz ⊢; omega) V f).2
                v rest (i + 1) tail tr2 le_rfl hA
        | obj fields =>
          rw [decodeArgsT_cons_notarr f v _ (by intro l hl; cases hl)] at hT
          cases hA : decodeArgsT f v rest (i + 1) with
          | mk res2 tr2 =>
            rw [hA] at hT
            cases res2 with
            | error m =>
              have h' : ((.error m : Except String (List (Arg V))), tr2) =
                  (.ok out, tr) := hT
              injection h' with h1 h2
              cases h1
            | ok tail =>
              have h' : ((.ok (.json (.obj fields) :: tail) :
                  Except String (List (Arg V))), tr2) = (.ok out, tr) := hT
              injection h' with h1 h2
              injection h1 with h3
              subst h3
              subst h2
              rw [postorderArgs]
              exact (ih (sizeOf rest) (by simp at hsz ⊢; omega) V f).2
                v rest (i + 1) tail tr2 le_rfl hA

/-- A failing array argument makes the instrumented argument loop produce
the same result and the same `Validate` event sequence no matter what
follows it: the siblings after the first failing subtree are never
examined. -/
theorem decodeArgsT_shortcircuit :
    ∀ (V : Type) (f : V → String → List (Arg V) → Option String)
      (v : Option V) (nested : List Json),
      (fromParts f nested (.mk "" [] v)).2 ≠ none →
      ∀ (pre ys : List Json) (i : Nat),
        decodeArgsT f v (pre ++ .arr nested :: ys) i =
          decodeArgsT f v (pre ++ [.arr nested]) i := by
  intro V f v nested hfail pre
  induction pre with
  | nil =>
    intro ys i
    simp only [List.nil_append]
    rw [decodeArgsT_cons_arr, decodeArgsT_cons_arr]
    cases hT : fromPartsT f nested (.mk "" [] v) with
    | mk p1 trn =>
      cases p1 with
      | mk ne res =>
        have hF : fromParts f nested (.mk "" [] v) = (ne, res) := by
          rw [← (decodeT_erase (sizeOf nested) V f).1 nested (.mk "" [] v)
            le_rfl, hT]
        cases res with
        | none => exact absurd (by rw [hF]) hfail
        | some m => rfl
  | cons p pre ih =>
    intro ys i
    cases p with
    | arr n1 =>
      rw [List.cons_append, List.cons_append, decodeArgsT_cons_arr,
        decodeArgsT_cons_arr]
      cases hT : fromPartsT f n1 (.mk "" [] v) with
      | mk p1 tr1 =>
        cases p1 with
        | mk ne1 res1 =>
          cases res1 with
          | none => rw [ih ys (i + 1)]
          | some m => rfl
    | str s =>
      rw [List.cons_append, List.cons_append,
        decodeArgsT_cons_notarr f v _ (by intro l hl; cases hl),
        decodeArgsT_cons_notarr f v _ (by intro l hl; cases hl), ih ys (i + 1)]
    | num lit =>
      rw [List.cons_append, List.cons_append,
        decodeArgsT_cons_notarr f v _ (by intro l hl; cases hl),
        decodeArgsT_cons_notarr f v _ (by intro l hl; cases hl), ih ys (i + 1)]
    | bool b =>
      rw [List.cons_append, List.cons_append,
        decodeArgsT_cons_notarr f v _ (by intro l hl; cases hl),
        decodeArgsT_cons_notarr f v _ (by intro l hl; cases hl), ih ys (i + 1)]
    | null =>
      rw [List.cons_append, List.cons_append,
        decodeArgsT_cons_notarr f v _ (by intro l hl; cases hl),
        decodeArgsT_cons_notarr f v _ (by intro l hl; cases hl), ih ys (i + 1)]
    | obj fields =>
      rw [List.cons_append, List.cons_append,
        decodeArgsT_cons_notarr f v _ (by intro l hl; cases hl),
        decodeArgsT_cons_notarr f v _ (by intro l hl; cases hl), ih ys (i + 1)]

/-- C2: (1) the instrumented decoder computes exactly what `fromParts`
computes; (2) on a successful decode the `Validate` invocation sequence is
the post-order, depth-first, left-to-right node sequence of the decoded
tree — every nested array argument is fully decoded and validated before the
outer node's own fields are assigned and its own `Validate` runs; (3) the
first failing sibling subtree short-circuits: the loop's result and its
event sequence are the same for every continuation after the failing
argument. -/
theorem C2_decode_postorder :
    (∀ (V : Type) (f : V → String → List (Arg V) → Option String)
       (parts : List Json) (e : Expression V),
      (fromPartsT f parts e).1 = fromParts f parts e) ∧
    (∀ (V : Type) (f : V → String → List (Arg V) → Option String)
       (parts : List Json) (e e' : Expression V) (tr : List (Expression V)),
      fromPartsT f parts e = ((e', none), tr) → tr = postorderNodes e') ∧
    (∀ (V : Type) (f : V → String → List (Arg V) → Option String)
       (v : Option V) (nested : List Json),
      (fromParts f nested (.mk "" [] v)).2 ≠ none →
      ∀ (pre ys : List Json) (i : Nat),
        decodeArgsT f v (pre ++ .arr nested :: ys) i =
          decodeArgsT f v (pre ++ [.arr nested]) i) := by
  refine ⟨?_, ?_, decodeArgsT_shortcircuit⟩
  · intro V f parts e
    exact (decodeT_erase (sizeOf parts) V f).1 parts e le_rfl
  · intro V f parts e e' tr h
    exact (decodeT_trace_postorder (sizeOf parts) V f).1 parts e e' tr le_rfl h

/-- Witness for C2: decoding `["or", ["void"]]` produces the event sequence
nested node first, root last — the post order of the decoded tree. -/
theorem C2_decode_postorder_witness :
    (fromPartsT (fun (_ : Unit) _ _ => none) [.str "or", .arr [.str "void"]]
      (.mk "" [] none)).2 =
      postorderNodes (.mk "or" [.expr (.mk "void" [] none)] none) := by
  have hvoidT : fromPartsT (fun (_ : Unit) _ _ => none) [.str "void"]
      (.mk "" [] none) =
      ((.mk "void" [] none, none), [.mk "void" [] none]) := by
    rw [fromPartsT_cons_str]
    rw [decodeArgsT_nil]
    simp +decide [Expression.Validate, Expression.Validator, Expression.Operator,
      Expression.Arguments]
  have hmain : fromPartsT (fun (_ : Unit) _ _ => none)
      [.str "or", .arr [.str "void"]] (.mk "" [] none) =
      ((.mk "or" [.expr (.mk "void" [] none)] none, none),
        [.mk "void" [] none, .mk "or" [.expr (.mk "void" [] none)] none]) := by
    rw [fromPartsT_cons_str]
    simp only [Expression.Validator]
    rw [decodeArgsT_cons_arr, hvoidT, decodeArgsT_nil]
    simp +decide [Expression.Validate, Expression.Validator, Expression.Operator,
      Expression.Arguments]
  rw [hmain]
  exact C2_decode_postorder.2.1 Unit (fun _ _ _ => none)
    [.str "or", .arr [.str "void"]] (.mk "" [] none)
    (.mk "or" [.expr (.mk "void" [] none)] none)
    [.mk "void" [] none, .mk "or" [.expr (.mk "void" [] none)] none] hmain

/-- The instrumented encoder computes exactly what
`MarshalJSON`/`marshalArgs` compute (first components agree). -/
theorem marshalT_erase :
    ∀ (n : Nat) (V : Type) (f : V → String → List (Arg V) → Option String),
      (∀ e : Expression V, sizeOf e ≤ n →
        (MarshalJSONT f e).1 = MarshalJSON f e) ∧
      (∀ (args : List (Arg V)) (i : Nat), sizeOf args ≤ n →
        (marshalArgsT f args i).1 = marshalArgs f args i) := by
  intro n
  induction n using Nat.strong_induction_on with
  | _ n ih =>
    intro V f
    constructor
    · intro e hsz
      rw [MarshalJSONT_eq, MarshalJSON_eq]
      cases hv : e.Validate f with
      | some m => rfl
      | none =>
        have hA : (marshalArgsT f e.Arguments 0).1 = marshalArgs f e.Arguments 0 := by
          apply (ih (sizeOf e.Arguments) ?_ V f).2 e.Arguments 0 le_rfl
          cases e with
          | mk op args val => simp [Expression.Arguments] at hsz ⊢; omega
        cases hT : marshalArgsT f e.Arguments 0 with
        | mk res tr =>
          have hM : marshalArgs f e.Arguments 0 = res := by rw [← hA, hT]
          rw [hM]
          cases res with
          | error m => rfl
          | ok ab => rfl
    · intro args i hsz
      cases args with
      | nil => rw [marshalArgsT_nil, marshalArgs_nil]
      | cons a rest =>
        have htail : (marshalArgsT f rest (i + 1)).1 = marshalArgs f rest (i + 1) :=
          (ih (sizeOf rest) (by simp at hsz ⊢; omega) V f).2 rest (i + 1) le_rfl
        cases a with
        | json j =>
          rw [marshalArgsT_cons_json, marshalArgs_cons_json]
          cases hT : marshalArgsT f rest (i + 1) with
          | mk res tr =>
            have hM : marshalArgs f rest (i + 1) = res := by rw [← htail, hT]
            rw [hM]
            cases res with
            | error m => rfl
            | ok tb => rfl
        | expr nested =>
          rw [marshalArgsT_cons_expr, marshalArgs_cons_expr]
          have hnested : (MarshalJSONT f nested).1 = MarshalJSON f nested :=
            (ih (sizeOf nested) (by simp at hsz ⊢; omega) V f).1 nested le_rfl
          cases hT : MarshalJSONT f nested with
          | mk resn trn =>
            have hM : MarshalJSON f nested = resn := by rw [← hnested, hT]
            rw [hM]
            cases resn with
            | error m => rfl
            | ok nb =>
              cases hT2 : marshalArgsT f rest (i + 1) with
              | mk res2 tr2 =>
                have hM2 : marshalArgs f rest (i + 1) = res2 := by
                  rw [← htail, hT2]
                rw [hM2]
                cases res2 with
                | error m => rfl
                | ok tb => rfl

/-- The instrumented encoder's `Validate` event sequence: on success it is
the full pre-order node sequence and every node validated; on failure the
events are a prefix of the pre-order sequence ending exactly at the first
node (in pre order) that fails validation — everything after it, including
that node's later siblings, is never visited. -/
theorem marshalT_trace :
    ∀ (n : Nat) (V : Type) (f : V → String → List (Arg V) → Option String),
      (∀ e : Expression V, sizeOf e ≤ n →
        (∀ s tr, MarshalJSONT f e = (.ok s, tr) →
          tr = preorderNodes e ∧
          ∀ x ∈ preorderNodes e, Expression.Validate f x = none) ∧
        (∀ m tr, MarshalJSONT f e = (.error m, tr) →
          ∃ (vis : List (Expression V)) (bad : Expression V)
            (rest : List (Expression V)),
            preorderNodes e = vis ++ bad :: rest ∧
            tr = vis ++ [bad] ∧
            (∀ x ∈ vis, Expression.Validate f x = none) ∧
            Expression.Validate f bad ≠ none)) ∧
      (∀ (args : List (Arg V)) (i : Nat), sizeOf args ≤ n →
        (∀ s tr, marshalArgsT f args i = (.ok s, tr) →
          tr = preorderArgs args ∧
          ∀ x ∈ preorderArgs args, Expression.Validate f x = none) ∧
        (∀ m tr, marshalArgsT f args i = (.error m, tr) →
          ∃ (vis : List (Expression V)) (bad : Expression V)
            (rest : List (Expression V)),
            preorderArgs args = vis ++ bad :: rest ∧
            tr = vis ++ [bad] ∧
            (∀ x ∈ vis, Expression.Validate f x = none) ∧
            Expression.Validate f bad ≠ none)) := by
  intro n
  induction n using Nat.strong_induction_on with
  | _ n ih =>
    intro V f
    constructor
    · intro e hsz
      cases e with
      | mk op args val =>
        have hargsz : sizeOf args < n := by simp at hsz ⊢; omega
        constructor
        · intro s tr h
          rw [MarshalJSONT_eq] at h
          simp only [Expression.Arguments, Expression.Operator] at h
          cases hv : Expression.Validate f (.mk op args val) with
          | some m0 =>
            rw [hv] at h
            have h' : ((.error m0 : Except String String),
                [Expression.mk op args val]) = (.ok s, tr) := h
            injection h' with h1 h2
            cases h1
          | none =>
            rw [hv] at h
            cases hA : marshalArgsT f args 0 with
            | mk resA trA =>
              rw [hA] at h
              cases resA with
              | error m0 =>
                have h' : ((.error m0 : Except String String),
                    Expression.mk op args val :: trA) = (.ok s, tr) := h
                injection h' with h1 h2
                cases h1
              | ok ab =>
                have h' : ((.ok ("[" ++ quoteString op ++ ab ++ "]") :
                    Except String String),
                    Expression.mk op args val :: trA) = (.ok s, tr) := h
                injection h' with h1 h2
                subst h2
                obtain ⟨htr, hall⟩ := ((ih (sizeOf args) hargsz V f).2 args 0
                  le_rfl).1 ab trA hA
                constructor
                · rw [preorderNodes, htr]
                · intro x hx
                  rw [preorderNodes] at hx
                  rcases List.mem_cons.mp hx with rfl | hx2
                  · exact hv
                  · exact hall x hx2
        · intro m tr h
          rw [MarshalJSONT_eq] at h
          simp only [Expression.Arguments, Expression.Operator] at h
          cases hv : Expression.Validate f (.mk op args val) with
          | some m0 =>
            rw [hv] at h
            have h' : ((.error m0 : Except String String),
                [Expression.mk op args val]) = (.error m, tr) := h
            injection h' with h1 h2
            subst h2
            refine ⟨[], .mk op args val, preorderArgs args, ?_, rfl, ?_, ?_⟩
            · rw [preorderNodes, List.nil_append]
            · intro x hx
              cases hx
            · rw [hv]
              simp
          | none =>
            rw [hv] at h
            cases hA : marshalArgsT f args 0 with
            | mk resA trA =>
              rw [hA] at h
              cases resA with
              | ok ab =>
                have h' : ((.ok ("[" ++ quoteString op ++ ab ++ "]") :
                    Except String String),
                    Expression.mk op args val :: trA) = (.error m, tr) := h
                injection h' with h1 h2
                cases h1
              | error m0 =>
                have h' : ((.error m0 : Except String String),
                    Expression.mk op args val :: trA) = (.error m, tr) := h
                injection h' with h1 h2
                subst h2
                obtain ⟨vis, bad, rest, hpo, htr, hvis, hbad⟩ :=
                  ((ih (sizeOf args) hargsz V f).2 args 0 le_rfl).2 m0 trA hA
                refine ⟨.mk op args val :: vis, bad, rest, ?_, ?_, ?_, hbad⟩
                · rw [preorderNodes, hpo, List.cons_append]
                · rw [htr, List.cons_append]
                · intro x hx
                  rcases List.mem_cons.mp hx with rfl | hx2
                  · exact hv
                  · exact hvis x hx2
    · intro args i hsz
      cases args with
      | nil =>
        constructor
        · intro s tr h
          rw [marshalArgsT_nil] at h
          have h' : ((.ok "" : Except String String),
              ([] : List (Expression V))) = (.ok s, tr) := h
          injection h' with h1 h2
          subst h2
          constructor
          · rw [preorderArgs]
          · intro x hx
            rw [preorderArgs] at hx
            cases hx
        · intro m tr h
          rw [marshalArgsT_nil] at h
          have h' : ((.ok "" : Except String String),
              ([] : List (Expression V))) = (.error m, tr) := h
          injection h' with h1 h2
          cases h1
      | cons a rest =>
        have hrestsz : sizeOf rest < n := by simp at hsz ⊢; omega
        cases a with
        | json j =>
          constructor
          · intro s tr h
            rw [marshalArgsT_cons_json] at h
            cases hA2 : marshalArgsT f rest (i + 1) with
            | mk res2 tr2 =>
              rw [hA2] at h
              cases res2 with
              | error m0 =>
                have h' : ((.error m0 : Except String String), tr2) = (.ok s, tr) := h
                injection h' with h1 h2
                cases h1
              | ok tb =>
                have h' : ((.ok ("," ++ serialize j ++ tb) :
                    Except String String), tr2) = (.ok s, tr) := h
                injection h' with h1 h2
                subst h2
                obtain ⟨htr, hall⟩ := ((ih (sizeOf rest) hrestsz V f).2 rest
                  (i + 1) le_rfl).1 tb tr2 hA2
                rw [preorderArgs]
                exact ⟨htr, hall⟩
          · intro m tr h
            rw [marshalArgsT_cons_json] at h
            cases hA2 : marshalArgsT f rest (i + 1) with
            | mk res2 tr2 =>
              rw [hA2] at h
              cases res2 with
              | ok tb =>
                have h' : ((.ok ("," ++ serialize j ++ tb) :
                    Except String String), tr2) = (.error m, tr) := h
                injection h' with h1 h2
                cases h1
              | error m0 =>
                have h' : ((.error m0 : Except String String), tr2) =
                    (.error m, tr) := h
                injection h' with h1 h2
                subst h2
                obtain ⟨vis, bad, rest2, hpo, htr, hvis, hbad⟩ :=
                  ((ih (sizeOf rest) hrestsz V f).2 rest (i + 1) le_rfl).2
                    m0 tr2 hA2
                rw [preorderArgs]
                exact ⟨vis, bad, rest2, hpo, htr, hvis, hbad⟩
        | expr ne =>
          have hnesz : sizeOf ne < n := by simp at hsz ⊢; omega
          constructor
          · intro s tr h
            rw [marshalArgsT_cons_expr] at h
            cases hN : MarshalJSONT f ne with
            | mk resn trn =>
              rw [hN] at h
              cases resn with
              | error m0 =>
                have h' : ((.error ("failed to marshal argument " ++ toString i ++
                    ": " ++ "json: error calling MarshalJSON for type *jiffy.Expression: " ++
                    m0) : Except String String), trn) = (.ok s, tr) := h
                injection h' with h1 h2
                cases h1
              | ok nb =>
                obtain ⟨htrn, halln⟩ := ((ih (sizeOf ne) hnesz V f).1 ne
                  le_rfl).1 nb trn hN
                cases hA2 : marshalArgsT f rest (i + 1) with
                | mk res2 tr2 =>
                  rw [hA2] at h
                  cases res2 with
                  | error m0 =>
                    have h' : ((.error m0 : Except String String), trn ++ tr2) =
                        (.ok s, tr) := h
                    injection h' with h1 h2
                    cases h1
                  | ok tb =>
                    have h' : ((.ok ("," ++ nb ++ tb) : Except String String),
                        trn ++ tr2) = (.ok s, tr) := h
                    injection h' with h1 h2
                    subst h2
                    obtain ⟨htr2, hall2⟩ := ((ih (sizeOf rest) hrestsz V f).2
                      rest (i + 1) le_rfl).1 tb tr2 hA2
                    constructor
                    · rw [preorderArgs, htrn, htr2]
                    · intro x hx
                      rw [preorderArgs] at hx
                      rcases List.mem_append.mp hx with hx1 | hx2
                      · exact halln x hx1
                      · exact hall2 x hx2
          · intro m tr h
            rw [marshalArgsT_cons_expr] at h
            cases hN : MarshalJSONT f ne with
            | mk resn trn =>
              rw [hN] at h
              cases resn with
              | error m0 =>
                have h' : ((.error ("failed to marshal argument " ++ toString i ++
                    ": " ++ "json: error calling MarshalJSON for type *jiffy.Expression: " ++
                    m0) : Except String String), trn) = (.error m, tr) := h
                injection h' with h1 h2
                subst h2
                obtain ⟨vis, bad, rest2, hpo, htr, hvis, hbad⟩ :=
                  ((ih (sizeOf ne) hnesz V f).1 ne le_rfl).2 m0 trn hN
                refine ⟨vis, bad, rest2 ++ preorderArgs rest, ?_, htr, hvis, hbad⟩
                rw [preorderArgs, hpo, List.append_assoc, List.cons_append]
              | ok nb =>
                obtain ⟨htrn, halln⟩ := ((ih (sizeOf ne) hnesz V f).1 ne
                  le_rfl).1 nb trn hN
                cases hA2 : marshalArgsT f rest (i + 1) with
                | mk res2 tr2 =>
                  rw [hA2] at h
                  cases res2 with
                  | ok tb =>
                    have h' : ((.ok ("," ++ nb ++ tb) : Except String String),
                        trn ++ tr2) = (.error m, tr) := h
                    injection h' with h1 h2
                    cases h1
                  | error m0 =>
                    have h' : ((.error m0 : Except String String), trn ++ tr2) =
                        (.error m, tr) := h
                    injection h' with h1 h2
                    subst h2
                    obtain ⟨vis2, bad2, rest2, hpo2, htr2, hvis2, hbad2⟩ :=
                      ((ih (sizeOf rest) hrestsz V f).2 rest (i + 1) le_rfl).2
                        m0 tr2 hA2
                    refine ⟨preorderNodes ne ++ vis2, bad2, rest2, ?_, ?_, ?_, hbad2⟩
                    · rw [preorderArgs, hpo2, List.append_assoc]
                    · rw [htrn, htr2, List.append_assoc]
                    · intro x hx
                      rcases List.mem_append.mp hx with hx1 | hx2
                      · exact halln x hx1
                      · exact hvis2 x hx2

/-- C3: (1) the instrumented encoder computes exactly what `MarshalJSON`
computes; (2) a node failing its own `Validate` makes encoding fail
immediately with only that one `Validate` event — no argument, nested child
included, is ever visited; (3) on success the event sequence is the full
pre-order, depth-first, left-to-right node sequence; (4) on failure the
event sequence is the pre-order prefix ending exactly at the first node in
pre order that fails validation — an invalid grandchild under valid
ancestors fails only when the walk reaches it and its later siblings are
never visited. -/
theorem C3_encode_preorder :
    (∀ (V : Type) (f : V → String → List (Arg V) → Option String)
       (e : Expression V), (MarshalJSONT f e).1 = MarshalJSON f e) ∧
    (∀ (V : Type) (f : V → String → List (Arg V) → Option String)
       (e : Expression V) (m : String),
      Expression.Validate f e = some m → MarshalJSONT f e = (.error m, [e])) ∧
    (∀ (V : Type) (f : V → String → List (Arg V) → Option String)
       (e : Expression V) (s : String) (tr : List (Expression V)),
      MarshalJSONT f e = (.ok s, tr) → tr = preorderNodes e) ∧
    (∀ (V : Type) (f : V → String → List (Arg V) → Option String)
       (e : Expression V) (m : String) (tr : List (Expression V)),
      MarshalJSONT f e = (.error m, tr) →
      ∃ (vis : List (Expression V)) (bad : Expression V)
        (rest : List (Expression V)),
        preorderNodes e = vis ++ bad :: rest ∧
        tr = vis ++ [bad] ∧
        (∀ x ∈ vis, Expression.Validate f x = none) ∧
        Expression.Validate f bad ≠ none) := by
  refine ⟨?_, ?_, ?_, ?_⟩
  · intro V f e
    exact (marshalT_erase (sizeOf e) V f).1 e le_rfl
  · intro V f e m h
    rw [MarshalJSONT_eq, h]
  · intro V f e s tr h
    exact (((marshalT_trace (sizeOf e) V f).1 e le_rfl).1 s tr h).1
  · intro V f e m tr h
    exact ((marshalT_trace (sizeOf e) V f).1 e le_rfl).2 m tr h

/-- Witness for C3: an invalid root (empty operator) with a valid child
fails immediately; the only `Validate` event is the root itself, the child
is never visited. -/
theorem C3_encode_preorder_witness :
    MarshalJSONT (fun (_ : Unit) _ _ => none)
      (.mk "" [.expr (.mk "ok" [] none)] none) =
      (.error "zero length operator name",
        [.mk "" [.expr (.mk "ok" [] none)] none]) := by
  apply C3_encode_preorder.2.1 Unit (fun _ _ _ => none)
  simp +decide [Expression.Validate, Expression.Operator, Expression.Validator]

end Jiffy
